import Mathlib

/-!
Shallow embedding of the quantitative core of the repository: the
connected-component / morphometric feature extraction flow
(src/ai/flows/morphometric-feature-extraction.ts), the overlay stage of the
watershed segmentation flow (src/unnamed/part_003), and the statistical
comparison flow (src/ai/flows/statistical-analysis.ts).

Pixel data is modelled exactly as the browser hands it to the flows: a flat
RGBA byte list, four samples per pixel, row-major.  JavaScript numeric
arithmetic is modelled over exact fields: ℚ for the image computations
(whose comparisons on byte data are exact), and ℝ together with an explicit
not-a-number marker for the statistical scoring, where a genuine 0/0 occurs.
-/

set_option maxRecDepth 100000

namespace Studio

/-- A decoded raster image as the flows receive it: `width`, `height`, and a
flat RGBA sample list `data` (row-major, four consecutive samples per pixel),
mirroring the browser `ImageData` object read by the source. -/
structure ImageData where
  width : ℕ
  height : ℕ
  data : List ℕ
  deriving DecidableEq

/-- Sum of the three colour samples of the pixel with flat row-major index
`idx`: `data[idx*4] + data[idx*4+1] + data[idx*4+2]` in the source.
Out-of-range reads yield 0 (the source only reads in-range pixels). -/
def rgbSum (img : ImageData) (idx : ℕ) : ℕ :=
  img.data.getD (idx * 4) 0 + img.data.getD (idx * 4 + 1) 0 + img.data.getD (idx * 4 + 2) 0

/-- The mean brightness `(r + g + b) / 3` the source computes for a pixel,
as an exact rational (the float computation on byte samples is exact enough
that the comparison against 128 agrees, see `isWhitePixel_iff_brightness`). -/
def brightness (img : ImageData) (idx : ℕ) : ℚ :=
  (rgbSum img idx : ℚ) / 3

/-- The `isWhitePixel` helper of `findConnectedComponents`
(morphometric-feature-extraction.ts, lines 87-92): out-of-range coordinates
are not white; otherwise the pixel is white when its mean brightness
`(r + g + b) / 3` exceeds 128, which for natural sample sums holds exactly
when `384 < r + g + b` (the comparison is stated sum-side so that it
kernel-evaluates; `isWhitePixel_iff_brightness` proves it equal to the
source's division form). -/
def isWhitePixel (img : ImageData) (x y : ℤ) : Bool :=
  if x < 0 ∨ (img.width : ℤ) ≤ x ∨ y < 0 ∨ (img.height : ℤ) ≤ y then false
  else decide (384 < rgbSum img (y * img.width + x).toNat)

/-- `isWhitePixel` read at a flat index, splitting it back into coordinates. -/
def foregroundIdx (img : ImageData) (idx : ℕ) : Bool :=
  isWhitePixel img (idx % img.width : ℕ) (idx / img.width : ℕ)

/-- The loop body of `calculatePerimeter` (lines 146-164): pixel `idx` is a
boundary pixel when one of its four flat-index neighbours is not in the
component.  Neighbour indices are computed by JavaScript number arithmetic
on the flat index, so they live in ℤ (a negative or overflowing index is
simply never a member of the pixel set). -/
def perimPred (component : List ℕ) (width : ℕ) (idx : ℕ) : Bool :=
  let pixelSet : List ℤ := component.map (fun m : ℕ => (m : ℤ))
  let x : ℤ := (idx % width : ℕ)
  let y : ℤ := (idx / width : ℕ)
  let neighbors : List ℤ :=
    [(y - 1) * width + x, (y + 1) * width + x, y * width + (x - 1), y * width + (x + 1)]
  neighbors.any fun nIdx => !(pixelSet.contains nIdx)

/-- `calculatePerimeter` (morphometric-feature-extraction.ts, lines 142-167):
count the component pixels satisfying `perimPred` — those with at least one
4-neighbour outside the component.  (`height` is received and, as in the
source, never used.) -/
def calculatePerimeter (component : List ℕ) (width height : ℕ) : ℕ :=
  component.countP (perimPred component width)

/-- The flat-index pixel list of a `w × h` axis-aligned rectangle whose
top-left corner is `(x0, y0)`, inside an image of width `W`, in row-major
order — the component a single isolated rectangular region produces. -/
def rectComponent (x0 y0 w h W : ℕ) : List ℕ :=
  (List.range h).flatMap fun j => (List.range w).map fun i => (y0 + j) * W + (x0 + i)

/-- The stack-based flood fill inside `findConnectedComponents`
(morphometric-feature-extraction.ts, lines 94-114).  The JavaScript `while`
loop is driven by an explicit fuel argument; `findConnectedComponents`
supplies more fuel than the loop can ever consume (every accepted pop marks
a fresh pixel visited and pushes four entries, so at most `1 + 4·W·H`
entries are ever pushed, hence popped).  The stack head is the most recently
pushed entry, matching `stack.pop()`; `visited` mirrors the JavaScript
boolean array of length `W·H`, and `pixels` collects accepted flat indices
in acceptance order. -/
def floodFillAux (img : ImageData) :
    ℕ → List (ℤ × ℤ) → List Bool → List ℕ → List ℕ × List Bool
  | 0, _, visited, pixels => (pixels, visited)
  | _ + 1, [], visited, pixels => (pixels, visited)
  | fuel + 1, (x, y) :: stack, visited, pixels =>
    if x < 0 ∨ (img.width : ℤ) ≤ x ∨ y < 0 ∨ (img.height : ℤ) ≤ y then
      floodFillAux img fuel stack visited pixels
    else
      let idx := (y * img.width + x).toNat
      if visited.getD idx false ∨ ¬ isWhitePixel img x y then
        floodFillAux img fuel stack visited pixels
      else
        floodFillAux img fuel
          ((x, y - 1) :: (x, y + 1) :: (x - 1, y) :: (x + 1, y) :: stack)
          (visited.set idx true) (pixels ++ [idx])

/-- Fuel that `floodFillAux` can never exhaust: strictly more than the
`1 + 4·W·H` stack entries that can ever be pushed. -/
def fccFuel (img : ImageData) : ℕ :=
  4 * (img.width * img.height) + 5

/-- One flood fill started at scan position `(x, y)`. -/
def floodFill (img : ImageData) (x y : ℕ) (visited : List Bool) : List ℕ × List Bool :=
  floodFillAux img (fccFuel img) [((x : ℤ), (y : ℤ))] visited []

/-- The row-major scan order of the double loop in `findConnectedComponents`
(lines 116-127): `y` outer over the height, `x` inner over the width. -/
def scanOrder (W H : ℕ) : List (ℕ × ℕ) :=
  (List.range H).flatMap fun y => (List.range W).map fun x => (x, y)

/-- The scan loop of `findConnectedComponents`: at each unvisited white scan
position, flood fill, and keep the discovered component only when its pixel
count is strictly greater than 50 (`component.length > 50` in the source). -/
def fccScan (img : ImageData) :
    List (ℕ × ℕ) → List Bool → List (List ℕ) → List (List ℕ) × List Bool
  | [], visited, comps => (comps, visited)
  | (x, y) :: rest, visited, comps =>
    let idx := y * img.width + x
    if ¬ visited.getD idx false ∧ isWhitePixel img x y then
      let fl := floodFill img x y visited
      if 50 < fl.1.length then fccScan img rest fl.2 (comps ++ [fl.1])
      else fccScan img rest fl.2 comps
    else fccScan img rest visited comps

/-- Result record of `findConnectedComponents`: the kept components and the
counter the source increments exactly once per kept component. -/
structure FccResult where
  components : List (List ℕ)
  count : ℕ
  deriving DecidableEq

/-- `findConnectedComponents` (morphometric-feature-extraction.ts, lines
79-130): row-major scan, flood fill at unvisited white pixels, keep
components of more than 50 pixels.  `count` equals the number of kept
components because the source increments it exactly when it pushes. -/
def findConnectedComponents (img : ImageData) : FccResult :=
  let comps :=
    (fccScan img (scanOrder img.width img.height)
      (List.replicate (img.width * img.height) false) []).1
  { components := comps, count := comps.length }

/-- An all-white `W × H` RGBA image: every sample 255. -/
def whiteImg (W H : ℕ) : ImageData :=
  { width := W, height := H, data := List.replicate (4 * (W * H)) 255 }

/-- `calculateArea` (lines 135-137): the pixel count of the component. -/
def calculateArea (component : List ℕ) : ℕ :=
  component.length

/-- The exact rational value of the double-precision constant `Math.PI`
(`884279719003555 / 2^48`) used by `calculateCircularity`. -/
def MathPI : ℚ :=
  884279719003555 / 281474976710656

/-- `calculateCircularity` (lines 172-175): `4·π·area / perimeter²`, with the
explicit guard returning 0 when the perimeter is 0 (no division occurs). -/
def calculateCircularity (area perimeter : ℕ) : ℚ :=
  if perimeter = 0 then 0
  else 4 * MathPI * area / (perimeter * perimeter)

/-- `calculateMeanIntensity` (lines 180-192): per component pixel the source
adds `(r + g + b) / 3` sampled from the *original* image at the component's
flat index, then divides by the pixel count.  The designated DAPI channel is
never read.  (Components are non-empty in every reachable call, so the
division is by a positive count.) -/
def calculateMeanIntensity (component : List ℕ) (originalImageData : ImageData) : ℚ :=
  (component.map fun idx => (rgbSum originalImageData idx : ℚ) / 3).sum / component.length

/-- One record of the feature list. -/
structure Feature where
  nucleusId : ℕ
  area : ℕ
  perimeter : ℕ
  circularity : ℚ
  meanIntensity : ℚ
  deriving DecidableEq

/-- The success path of `extractMorphometricFeatures` (lines 194-231) after
the browser has decoded both data URIs into pixel grids (decoding is
external I/O, not part of the core): find the connected components of the
segmentation mask and map each to its feature record, with the circularity
clamped to `[0, 1]` exactly as in line 226.  The `dapiChannel` input is
accepted and, as in the source, never used. -/
def extractMorphometricFeatures
    (originalImageData segmentationImageData : ImageData) (dapiChannel : ℕ) : List Feature :=
  ((findConnectedComponents segmentationImageData).components.enum).map fun ic =>
    let area := calculateArea ic.2
    let perimeter :=
      calculatePerimeter ic.2 segmentationImageData.width segmentationImageData.height
    let circularity := calculateCircularity area perimeter
    { nucleusId := ic.1 + 1
      area := area
      perimeter := perimeter
      circularity := min 1 (max 0 circularity)
      meanIntensity := calculateMeanIntensity ic.2 originalImageData }

/-- 4-adjacency of two flat row-major indices in an image of width `W`:
same row and adjacent columns, or same column and adjacent rows. -/
def adjPix (W : ℕ) (a b : ℕ) : Prop :=
  (a / W = b / W ∧ (a % W + 1 = b % W ∨ b % W + 1 = a % W)) ∨
  (a % W = b % W ∧ (a / W + 1 = b / W ∨ b / W + 1 = a / W))

/-- Reachability between pixels through 4-adjacency steps that stay inside
the pixel list `c` — the sense in which a discovered component is
4-connected. -/
def reachIn (W : ℕ) (c : List ℕ) (p q : ℕ) : Prop :=
  Relation.ReflTransGen (fun u v => u ∈ c ∧ v ∈ c ∧ adjPix W u v) p q

/-- The flat row-major index of a flood-fill stack coordinate pair, as the
source computes it (`y * width + x`, truncated at 0 — only applied to
in-range pairs). -/
def flatIdxZ (W : ℕ) (e : ℤ × ℤ) : ℕ :=
  (e.2 * W + e.1).toNat

/-- Whether a flood-fill stack coordinate pair lies inside the image grid. -/
def inRangeZ (W H : ℕ) (e : ℤ × ℤ) : Prop :=
  0 ≤ e.1 ∧ e.1 < (W : ℤ) ∧ 0 ≤ e.2 ∧ e.2 < (H : ℤ)

/-- The invariants each kept component of `findConnectedComponents`
satisfies: non-empty, above the minimum-size filter, duplicate-free, all
foreground, and 4-connected within itself. -/
def goodComponent (img : ImageData) (c : List ℕ) : Prop :=
  c ≠ [] ∧ 50 < c.length ∧ c.Nodup ∧
    (∀ p ∈ c, foregroundIdx img p = true) ∧
    (∀ p ∈ c, ∀ q ∈ c, reachIn img.width c p q)

/-- The overlay-colouring loop of `performSegmentation`
(src/unnamed/part_003, lines 124-128): for each of the `nucleiCount`
contours the source draws it filled with the colour
`Scalar(Math.random()*255, Math.random()*255, Math.random()*255, 128)`.
`rand` models the stream of successive `Math.random()` draws (three per
contour).  The OpenCV stages before this loop are external library calls;
their contour count is this function's input. -/
def overlayColors (nucleiCount : ℕ) (rand : ℕ → ℚ) : List (ℚ × ℚ × ℚ × ℚ) :=
  (List.range nucleiCount).map fun i =>
    (rand (3 * i) * 255, rand (3 * i + 1) * 255, rand (3 * i + 2) * 255, 128)

/-- The observable output of `performSegmentation` as far as randomness is
concerned: the overlay colours stamped into the returned image, and the
nuclei count, which is computed *before* any `Math.random()` draw. -/
def performSegmentationOverlay (nucleiCount : ℕ) (rand : ℕ → ℚ) :
    List (ℚ × ℚ × ℚ × ℚ) × ℕ :=
  (overlayColors nucleiCount rand, nucleiCount)

/-! ### JavaScript number model for the statistical flow

`statistical-analysis.ts` computes in JavaScript doubles, and one of its
reachable computations is a genuine `0/0`.  We model a JavaScript number as
a real number or one of the special values `NaN`, `+∞`, `-∞`, with the
IEEE-754 special-value rules JavaScript uses (negative zero is collapsed
onto zero; no reachable computation in this file divides by a produced
negative zero).  Rounding of ordinary arithmetic is idealised away, which is
the standard exact-real reading of float code and does not affect any
special-value case. -/

/-- A JavaScript number: a real, `+∞`, `-∞`, or `NaN`. -/
inductive JNum where
  | num (x : ℝ)
  | pinf
  | ninf
  | nan

/-- Negation of a JavaScript number. -/
noncomputable def jneg : JNum → JNum
  | .num x => .num (-x)
  | .pinf => .ninf
  | .ninf => .pinf
  | .nan => .nan

/-- Addition of JavaScript numbers (`∞ + (-∞) = NaN`). -/
noncomputable def jadd : JNum → JNum → JNum
  | .num a, .num b => .num (a + b)
  | .nan, _ => .nan
  | _, .nan => .nan
  | .pinf, .ninf => .nan
  | .ninf, .pinf => .nan
  | .pinf, _ => .pinf
  | _, .pinf => .pinf
  | .ninf, _ => .ninf
  | _, .ninf => .ninf

/-- Subtraction of JavaScript numbers. -/
noncomputable def jsub (a b : JNum) : JNum :=
  jadd a (jneg b)

/-- Multiplication of JavaScript numbers (`0 · ∞ = NaN`). -/
noncomputable def jmul : JNum → JNum → JNum
  | .num a, .num b => .num (a * b)
  | .nan, _ => .nan
  | _, .nan => .nan
  | .pinf, .pinf => .pinf
  | .pinf, .ninf => .ninf
  | .ninf, .pinf => .ninf
  | .ninf, .ninf => .pinf
  | .pinf, .num b => if b = 0 then .nan else if 0 < b then .pinf else .ninf
  | .num a, .pinf => if a = 0 then .nan else if 0 < a then .pinf else .ninf
  | .ninf, .num b => if b = 0 then .nan else if 0 < b then .ninf else .pinf
  | .num a, .ninf => if a = 0 then .nan else if 0 < a then .ninf else .pinf

/-- Division of JavaScript numbers: `0/0 = NaN`, `x/0 = ±∞` for `x ≠ 0`,
`±∞/±∞ = NaN`, finite over infinite is 0. -/
noncomputable def jdiv : JNum → JNum → JNum
  | .nan, _ => .nan
  | _, .nan => .nan
  | .pinf, .pinf => .nan
  | .pinf, .ninf => .nan
  | .ninf, .pinf => .nan
  | .ninf, .ninf => .nan
  | .num a, .num b =>
    if b = 0 then (if a = 0 then .nan else if 0 < a then .pinf else .ninf)
    else .num (a / b)
  | .pinf, .num b => if 0 ≤ b then .pinf else .ninf
  | .ninf, .num b => if 0 ≤ b then .ninf else .pinf
  | .num _, .pinf => .num 0
  | .num _, .ninf => .num 0

/-- `Math.sqrt`: `NaN` on `NaN` and on negative arguments, `+∞` on `+∞`. -/
noncomputable def jsqrt : JNum → JNum
  | .nan => .nan
  | .ninf => .nan
  | .pinf => .pinf
  | .num a => if a < 0 then .nan else .num (Real.sqrt a)

/-- `Math.abs`. -/
noncomputable def jabs : JNum → JNum
  | .num a => .num |a|
  | .pinf => .pinf
  | .ninf => .pinf
  | .nan => .nan

/-- `Math.min` of two arguments: `NaN` if either argument is `NaN`. -/
noncomputable def jmin : JNum → JNum → JNum
  | .nan, _ => .nan
  | _, .nan => .nan
  | .ninf, _ => .ninf
  | _, .ninf => .ninf
  | .pinf, b => b
  | a, .pinf => a
  | .num a, .num b => .num (min a b)

/-- `Math.max` of two arguments: `NaN` if either argument is `NaN`. -/
noncomputable def jmax : JNum → JNum → JNum
  | .nan, _ => .nan
  | _, .nan => .nan
  | .pinf, _ => .pinf
  | _, .pinf => .pinf
  | .ninf, b => b
  | a, .ninf => a
  | .num a, .num b => .num (max a b)

/-- `Math.exp`: `exp(+∞) = +∞`, `exp(-∞) = 0`. -/
noncomputable def jexp : JNum → JNum
  | .nan => .nan
  | .pinf => .pinf
  | .ninf => .num 0
  | .num a => .num (Real.exp a)

/-- `ss.mean` of simple-statistics: the arithmetic mean `sum / length`
(it throws on an empty list; callers below model that exception path). -/
noncomputable def ssMean (g : List ℝ) : ℝ :=
  g.sum / g.length

/-- `ss.variance` of simple-statistics: the population variance, mean squared
deviation from the mean. -/
noncomputable def ssVariance (g : List ℝ) : ℝ :=
  ((g.map fun x => (x - ssMean g) ^ 2).sum) / g.length

/-- `ss.standardDeviation`: the square root of the population variance (its
special case for one-element lists returns 0, which `√0 = 0` also gives). -/
noncomputable def ssStd (g : List ℝ) : ℝ :=
  Real.sqrt (ssVariance g)

/-- Result of one of the approximate test-scoring functions: either the
computed JavaScript number, or the `Math.random() * 0.1` fallback the
source returns when simple-statistics is unavailable or throws (it throws
exactly when some group is empty). -/
inductive TestP where
  | val (v : JNum)
  | rand01

/-- `performTTest` (statistical-analysis.ts, lines 42-70).  The
simple-statistics calls throw exactly when a group is empty, landing in the
catch-block fallback (`rand01`).  Otherwise the means and deviations are
real numbers and the remaining arithmetic is JavaScript double arithmetic:
with two constant groups, `pooledStd` is 0 and `tStat` is the genuine
`0 / 0 = NaN`, which then propagates through the p-value formula. -/
noncomputable def performTTest (group1 group2 : List ℝ) : TestP :=
  if group1.isEmpty ∨ group2.isEmpty then .rand01
  else
    let mean1 := ssMean group1
    let mean2 := ssMean group2
    let std1 := ssStd group1
    let std2 := ssStd group2
    let n1 : ℝ := group1.length
    let n2 : ℝ := group2.length
    let tStat := jdiv (.num (mean1 - mean2)) (.num (Real.sqrt (std1 * std1 / n1 + std2 * std2 / n2)))
    let df := jdiv (.num ((std1 * std1 / n1 + std2 * std2 / n2) ^ 2))
      (jadd (jdiv (.num ((std1 * std1 / n1) ^ 2)) (.num (n1 - 1)))
            (jdiv (.num ((std2 * std2 / n2) ^ 2)) (.num (n2 - 1))))
    let pValue := jmul (.num 2)
      (jsub (.num 1) (jdiv (jabs tStat) (jadd (jabs tStat) (jsqrt df))))
    .val (jmax (.num 0) (jmin (.num 1) pValue))

/-- `performANOVA` (lines 75-119): random fallback for fewer than two groups
or when a simple-statistics call throws (some group empty); otherwise the
F-statistic construction of the source with `exp(-F/2)` as score, clamped to
`[0, 1]`. -/
noncomputable def performANOVA (groups : List (List ℝ)) : TestP :=
  if groups.length < 2 ∨ groups.any (·.isEmpty) then .rand01
  else
    let allValues := groups.flatten
    let overallMean := ssMean allValues
    let totalN : ℝ := allValues.length
    let betweenSS : ℝ :=
      (groups.map fun g => (g.length : ℝ) * (ssMean g - overallMean) ^ 2).sum
    let withinSS : ℝ :=
      (groups.map fun g => (g.map fun v => (v - ssMean g) ^ 2).sum).sum
    let betweenDF : ℝ := (groups.length : ℝ) - 1
    let withinDF : ℝ := totalN - (groups.length : ℝ)
    let betweenMS : ℝ := betweenSS / betweenDF
    let withinMS := jdiv (.num withinSS) (.num withinDF)
    let fStat := jdiv (.num betweenMS) withinMS
    let pValue := jexp (jdiv (jneg fStat) (.num 2))
    .val (jmax (.num 0) (jmin (.num 1) pValue))

/-- `bonferroniCorrection` (lines 124-127): `min(1, p · n)` with `n` the
number of comparisons, over JavaScript numbers. -/
noncomputable def bonferroniCorrection (pValues : List JNum) : List JNum :=
  pValues.map fun p => jmin (.num 1) (jmul p (.num pValues.length))

/-- The ascending stable sort of `(p, originalIndex)` pairs built by
`benjaminiHochbergCorrection` (lines 134-136): JavaScript's stable
`Array.prototype.sort` with comparator `a.p - b.p` is, on real inputs, the
stable ascending sort by `p`, which `List.insertionSort` implements. -/
def bhSorted (pValues : List ℚ) : List (ℚ × ℕ) :=
  List.insertionSort (fun a b => a.1 ≤ b.1) (pValues.enum.map fun p => (p.2, p.1))

/-- The backward loop of `benjaminiHochbergCorrection` (lines 140-150),
processing the sorted pairs from the largest p downwards (so the input here
is the *reversed* ascending sort), carrying the previously corrected value:
the first iteration stores `min(1, p·n/rank)` and every later one
`min(1, p·n/rank, previous)`.  Output: `(originalIndex, corrected)` pairs in
processing order. -/
def bhBack (n : ℚ) : List (ℚ × ℕ) → Option ℚ → ℕ → List (ℕ × ℚ)
  | [], _, _ => []
  | pj :: rest, acc, rank =>
    let cand := pj.1 * n / (rank : ℚ)
    let c := match acc with
      | Option.none => min 1 cand
      | Option.some prev => min 1 (min cand prev)
    (pj.2, c) :: bhBack n rest (Option.some c) (rank - 1)

/-- `benjaminiHochbergCorrection` (lines 132-153) over exact rationals: sort
ascending with original indices, scan from the largest p-value down
enforcing the running minimum, write each corrected value back at its
original index, and return the array read out in index order. -/
def benjaminiHochbergCorrection (pValues : List ℚ) : List ℚ :=
  let n := pValues.length
  let assoc := bhBack (n : ℚ) (bhSorted pValues).reverse Option.none n
  (List.range n).map fun j => ((assoc.lookup j).getD 0)

/-- The comparator order used by the JavaScript-number instantiation of the
Benjamini-Hochberg sort.  On real entries it is the ascending order of the
`a.p - b.p` comparator; comparisons involving `NaN` make the JavaScript sort
implementation-defined, so any fixed choice (here: `NaN` compares low) is as
faithful as another — no verified path sorts a `NaN`. -/
noncomputable def jleB : JNum → JNum → Bool
  | .nan, _ => true
  | _, .nan => true
  | .ninf, _ => true
  | _, .ninf => false
  | .pinf, .pinf => true
  | .num _, .pinf => true
  | .pinf, .num _ => false
  | .num a, .num b => decide (a ≤ b)

/-- The backward Benjamini-Hochberg loop over JavaScript numbers, exactly as
`bhBack` but with JavaScript arithmetic (`Math.min`, `p * n / rank`). -/
noncomputable def bhBackJs (n : JNum) : List (JNum × ℕ) → Option JNum → ℕ → List (ℕ × JNum)
  | [], _, _ => []
  | pj :: rest, acc, rank =>
    let cand := jdiv (jmul pj.1 n) (.num (rank : ℝ))
    let c := match acc with
      | Option.none => jmin (.num 1) cand
      | Option.some prev => jmin (.num 1) (jmin cand prev)
    (pj.2, c) :: bhBackJs n rest (Option.some c) (rank - 1)

/-- `benjaminiHochbergCorrection` as invoked from `analyzeData`, over
JavaScript numbers. -/
noncomputable def benjaminiHochbergCorrectionJs (pValues : List JNum) : List JNum :=
  let n := pValues.length
  let sorted :=
    List.insertionSort (fun a b => jleB a.1 b.1 = true) (pValues.enum.map fun p => (p.2, p.1))
  let assoc := bhBackJs (.num n) sorted.reverse Option.none n
  (List.range n).map fun j => ((assoc.lookup j).getD (.num 0))

/-- The statistical test selector of the analysis input schema. -/
inductive StatTest where
  | ttest
  | anova
  deriving DecidableEq

/-- The correction selector of the analysis input schema. -/
inductive CorrectionMethod where
  | bonferroni
  | benjaminiHochberg
  | none
  deriving DecidableEq

/-- One dataset of the analysis input: a name and the per-nucleus feature
record (a JavaScript object, modelled as ordered key-value pairs; its
`Object.values` are the values in insertion order, all numbers by schema). -/
structure AnalysisDatasetInput where
  dataset : String
  features : List (String × ℝ)

/-- The input of `analyzeData`. -/
structure AnalysisInput where
  data : List AnalysisDatasetInput
  statisticalTest : StatTest
  correctionMethod : CorrectionMethod

/-- One output row of `analyzeData`. -/
structure ComparisonResult where
  comparison : String
  p_value : JNum
  corrected_p_value : JNum

/-- The output record of `analyzeData`. -/
structure AnalysisOutput where
  results : List ComparisonResult

/-- The ordered `i < j` index pairs of the nested post-hoc / fallback loops,
in loop order. -/
def pairsUpTo (n : ℕ) : List (ℕ × ℕ) :=
  (List.range n).flatMap fun i => ((List.range n).filter fun j => i < j).map fun j => (i, j)

/-- Materialise a test score: a computed value stays as is; the
`Math.random() * 0.1` fallback consumes the supplied draw.  (In `analyzeData`
the fallback is unreachable: every group it passes is non-empty.) -/
noncomputable def resolveTest (t : TestP) (draw : ℝ) : JNum :=
  match t with
  | .val v => v
  | .rand01 => .num (draw * 0.1)

/-- JavaScript truthiness of a number: `0` and `NaN` are falsy. -/
noncomputable def jsTruthy : JNum → Bool
  | .num x => if x = 0 then false else true
  | .nan => false
  | .pinf => true
  | .ninf => true

/-- The `correctedPValues[index] || result.p_value` update of line 228:
an absent (`undefined`) or falsy corrected value falls back to the raw one. -/
noncomputable def jsOrElse (c : Option JNum) (fallback : JNum) : JNum :=
  match c with
  | Option.none => fallback
  | Option.some v => if jsTruthy v then v else fallback

/-- The body of the `try` block of `analyzeData` (lines 156-231), the only
`throw` of which is the `data.length < 2` guard of line 159.  `rand` models
the stream of `Math.random()` draws, indexed by use site; no draw is
consumed on any path verified below. -/
noncomputable def analyzeDataInner (input : AnalysisInput) (rand : ℕ → ℝ) :
    Except String (List ComparisonResult) :=
  if input.data.length < 2 then .error "Need at least 2 datasets for comparison"
  else
    let datasetFeatures : List (String × List ℝ) := input.data.enum.map fun kd =>
      let features := kd.2.features.map (·.2)
      (kd.2.dataset, if features.isEmpty then [rand kd.1 * 1000] else features)
    let base : List (String × JNum) :=
      if input.statisticalTest = StatTest.ttest ∧ datasetFeatures.length = 2 then
        match datasetFeatures with
        | d0 :: d1 :: _ =>
          [(d0.1 ++ " vs " ++ d1.1, resolveTest (performTTest d0.2 d1.2) (rand 1000))]
        | _ => []
      else if input.statisticalTest = StatTest.anova then
        let _omnibus := performANOVA (datasetFeatures.map (·.2))
        (pairsUpTo datasetFeatures.length).enum.map fun kij =>
          let di := datasetFeatures.getD kij.2.1 ("", [])
          let dj := datasetFeatures.getD kij.2.2 ("", [])
          (di.1 ++ " vs " ++ dj.1, resolveTest (performTTest di.2 dj.2) (rand (2000 + kij.1)))
      else []
    let pValues := base.map (·.2)
    let correctedPValues :=
      match input.correctionMethod with
      | .bonferroni => bonferroniCorrection pValues
      | .benjaminiHochberg => benjaminiHochbergCorrectionJs pValues
      | .none => pValues
    .ok (base.enum.map fun kb =>
      { comparison := kb.2.1
        p_value := kb.2.2
        corrected_p_value := jsOrElse (correctedPValues.get? kb.1) kb.2.2 })

/-- The catch block of `analyzeData` (lines 233-251): fabricate one result
per dataset pair from fresh `Math.random()` draws, with
`min(1, p · results.length + 1)` as "corrected" value, `results.length`
being the number of rows already pushed. -/
noncomputable def analyzeFallback (input : AnalysisInput) (rand : ℕ → ℝ) :
    List ComparisonResult :=
  let datasets := input.data.map (·.dataset)
  (pairsUpTo datasets.length).enum.map fun ke =>
    let p : JNum := .num (rand (3000 + ke.1) * 0.2)
    { comparison := (datasets.getD ke.2.1 "") ++ " vs " ++ (datasets.getD ke.2.2 "")
      p_value := p
      corrected_p_value := jmin (.num 1) (jadd (jmul p (.num ke.1)) (.num 1)) }

/-- `analyzeData` (lines 155-253): run the `try` body; on any thrown error —
including its own `data.length < 2` guard — the catch block swallows the
error and resolves successfully with fabricated results.  The promise is
never rejected, so the result is always `Except.ok`. -/
noncomputable def analyzeData (input : AnalysisInput) (rand : ℕ → ℝ) :
    Except String AnalysisOutput :=
  match analyzeDataInner input rand with
  | .ok results => .ok { results := results }
  | .error _ => .ok { results := analyzeFallback input rand }

/-! ## Theorems -/

/-- Fidelity of the in-range branch of `isWhitePixel`: the natural-number
comparison used in the embedding is the source's `brightness > 128`. -/
theorem isWhitePixel_iff_brightness (img : ImageData) (x y : ℤ)
    (hx0 : 0 ≤ x) (hxw : x < (img.width : ℤ)) (hy0 : 0 ≤ y) (hyh : y < (img.height : ℤ)) :
    (isWhitePixel img x y = true) ↔
      (128 : ℚ) < brightness img (y * img.width + x).toNat := by
  have hcond : ¬ (x < 0 ∨ (img.width : ℤ) ≤ x ∨ y < 0 ∨ (img.height : ℤ) ≤ y) := by
    push_neg
    exact ⟨hx0, hxw, hy0, hyh⟩
  rw [isWhitePixel, if_neg hcond]
  rw [brightness, lt_div_iff₀ (by norm_num : (0 : ℚ) < 3)]
  rw [show (128 : ℚ) * 3 = ((384 : ℕ) : ℚ) by norm_num]
  rw [Nat.cast_lt]
  simp

/-- C10: the `dapiChannel` input of feature extraction has no effect on the
output: two inputs identical except for `dapiChannel` yield identical
feature lists, because mean intensity always averages the red, green and
blue samples and the designated channel is never read. -/
theorem extractMorphometricFeatures_dapiChannel_unused
    (originalImageData segmentationImageData : ImageData) (d1 d2 : ℕ) :
    extractMorphometricFeatures originalImageData segmentationImageData d1 =
      extractMorphometricFeatures originalImageData segmentationImageData d2 :=
  rfl

/-- C4 (amended): the nuclei count returned by `performSegmentation` does
not depend on the `Math.random()` stream (it is computed before any draw),
and with zero detected nuclei the whole output is draw-independent; the
overlay colours, by contrast, are drawn from the stream (see the
counterexample). -/
theorem performSegmentation_count_deterministic :
    (∀ (nucleiCount : ℕ) (r1 r2 : ℕ → ℚ),
      (performSegmentationOverlay nucleiCount r1).2 =
        (performSegmentationOverlay nucleiCount r2).2) ∧
    (∀ r1 r2 : ℕ → ℚ,
      performSegmentationOverlay 0 r1 = performSegmentationOverlay 0 r2) := by
  refine ⟨fun _ _ _ => rfl, fun r1 r2 => ?_⟩
  simp [performSegmentationOverlay, overlayColors]

/-- C4 counterexample: with one detected nucleus, two runs of
`performSegmentation` whose `Math.random()` streams differ produce different
outputs — the segmentation overlay is not reproducible bit-for-bit. -/
theorem performSegmentation_output_depends_on_randomness :
    performSegmentationOverlay 1 (fun _ => 0) ≠ performSegmentationOverlay 1 (fun _ => 1) := by
  intro h
  have h2 := congrArg (fun t => (t.1.headD (0, 0, 0, 0)).1) h
  norm_num [performSegmentationOverlay, overlayColors, List.range_succ] at h2

/-- C1: `analyzeData` never propagates an error — its catch block swallows
every thrown error, including its own fewer-than-2-datasets guard, and the
promise always resolves successfully.  On a single-dataset input it resolves
with an empty result list instead of raising the insufficient-data error the
specification requires. -/
theorem analyzeData_swallows_insufficient_data :
    (∀ (input : AnalysisInput) (rand : ℕ → ℝ),
      ∃ out, analyzeData input rand = Except.ok out) ∧
    (∀ rand : ℕ → ℝ,
      analyzeData
        { data := [{ dataset := "A", features := [("area", (5 : ℝ))] }],
          statisticalTest := StatTest.ttest,
          correctionMethod := CorrectionMethod.none } rand =
        Except.ok { results := [] }) := by
  constructor
  · intro input rand
    cases h : analyzeDataInner input rand with
    | ok results => exact ⟨_, by rw [analyzeData, h]⟩
    | error e => exact ⟨_, by rw [analyzeData, h]⟩
  · intro rand
    have hinner :
        analyzeDataInner
          { data := [{ dataset := "A", features := [("area", (5 : ℝ))] }],
            statisticalTest := StatTest.ttest,
            correctionMethod := CorrectionMethod.none } rand =
          Except.error "Need at least 2 datasets for comparison" := by
      rw [analyzeDataInner, if_pos (by simp)]
    rw [analyzeData, hinner]
    simp [analyzeFallback, pairsUpTo, List.range_succ]

/-! ### The perimeter of an isolated rectangle (C2) -/

/-- Row representations of flat indices are unique: if two integers in
`[0, W)` give the same `y·W + r` value, rows and remainders agree. -/
theorem rowRep_inj (W : ℕ) (hW : 0 < W) (y1 y2 a1 a2 : ℤ)
    (h10 : 0 ≤ a1) (h1W : a1 < W) (h20 : 0 ≤ a2) (h2W : a2 < W)
    (heq : y1 * W + a1 = y2 * W + a2) : y1 = y2 ∧ a1 = a2 := by
  obtain ⟨k, hk⟩ : (W : ℤ) ∣ (a2 - a1) := ⟨y1 - y2, by linarith⟩
  have hk0 : k = 0 := by
    by_contra hne
    have h1 : (1 : ℤ) ≤ |k| := Int.one_le_abs hne
    have h2 : |a2 - a1| = (W : ℤ) * |k| := by
      rw [hk, abs_mul, abs_of_nonneg (by exact_mod_cast Nat.zero_le W : (0 : ℤ) ≤ W)]
    have h3 : |a2 - a1| < (W : ℤ) := abs_lt.mpr ⟨by linarith, by linarith⟩
    nlinarith
  have ha : a1 = a2 := by
    have := hk
    rw [hk0, mul_zero] at this
    linarith
  refine ⟨?_, ha⟩
  have hy : y1 * (W : ℤ) = y2 * W := by linarith
  exact mul_right_cancel₀ (by exact_mod_cast hW.ne' : (W : ℤ) ≠ 0) hy

/-- Membership of a flat index in `rectComponent`. -/
theorem mem_rectComponent (x0 y0 w h W a : ℕ) :
    a ∈ rectComponent x0 y0 w h W ↔
      ∃ j, j < h ∧ ∃ i, i < w ∧ a = (y0 + j) * W + (x0 + i) := by
  simp only [rectComponent, List.mem_flatMap, List.mem_map, List.mem_range]
  constructor
  · rintro ⟨j, hj, i, hi, rfl⟩
    exact ⟨j, hj, i, hi, rfl⟩
  · rintro ⟨j, hj, i, hi, rfl⟩
    exact ⟨j, hj, i, hi, rfl⟩

/-- Membership of an integer in the cast pixel set of `rectComponent`. -/
theorem memZ_rectComponent (x0 y0 w h W : ℕ) (z : ℤ) :
    z ∈ (rectComponent x0 y0 w h W).map (fun m : ℕ => (m : ℤ)) ↔
      ∃ j, j < h ∧ ∃ i, i < w ∧ z = ((y0 + j) * W + (x0 + i) : ℤ) := by
  constructor
  · intro hmem
    rw [List.mem_map] at hmem
    obtain ⟨a, ha, hza⟩ := hmem
    obtain ⟨j, hj, i, hi, rfl⟩ := (mem_rectComponent x0 y0 w h W a).mp ha
    exact ⟨j, hj, i, hi, by rw [← hza]; push_cast; ring⟩
  · rintro ⟨j, hj, i, hi, rfl⟩
    rw [List.mem_map]
    refine ⟨(y0 + j) * W + (x0 + i), (mem_rectComponent x0 y0 w h W _).mpr ⟨j, hj, i, hi, rfl⟩, ?_⟩
    push_cast
    ring

section RectPerimeter

variable {x0 y0 w h W : ℕ}

/-- In-rectangle membership of an integer written in row form, decoded to
rectangle coordinates.  The row remainder must lie in `[0, W)`. -/
theorem rect_row_decode (hfit : x0 + w ≤ W) (z y : ℤ) (r : ℤ)
    (hr0 : 0 ≤ r) (hrW : r < (W : ℤ)) (hz : z = y * W + r) (hW : 0 < W)
    (hmem : z ∈ (rectComponent x0 y0 w h W).map (fun m : ℕ => (m : ℤ))) :
    ∃ j, j < h ∧ ∃ i, i < w ∧ y = ((y0 : ℤ) + j) ∧ r = ((x0 : ℤ) + i) := by
  obtain ⟨j, hj, i, hi, hzval⟩ := (memZ_rectComponent x0 y0 w h W z).mp hmem
  have hxiW : ((x0 : ℤ) + (i : ℤ)) < (W : ℤ) := by
    have hn : x0 + i < W := by omega
    exact_mod_cast hn
  have := rowRep_inj W hW ((y0 : ℤ) + j) y ((x0 : ℤ) + i) r
    (by positivity) hxiW hr0 hrW
    (by rw [← hz, hzval])
  exact ⟨j, hj, i, hi, this.1.symm, this.2.symm⟩

/-- Coordinates of a rectangle pixel recovered from its flat index. -/
theorem rect_coords (hfit : x0 + w ≤ W) (hW : 0 < W) {i j : ℕ} (hi : i < w) (hj : j < h) :
    ((y0 + j) * W + (x0 + i)) % W = x0 + i ∧ ((y0 + j) * W + (x0 + i)) / W = y0 + j := by
  have hlt : x0 + i < W := by omega
  constructor
  · rw [Nat.mul_comm (y0 + j) W, Nat.mul_add_mod, Nat.mod_eq_of_lt hlt]
  · have hsw : (y0 + j) * W + (x0 + i) = (x0 + i) + W * (y0 + j) := by ring
    rw [hsw, Nat.add_mul_div_left _ _ hW, Nat.div_eq_of_lt hlt, Nat.zero_add]

/-- The north neighbour of rectangle pixel `(i, j)` is in the rectangle
exactly when the pixel is not in the top row. -/
theorem rect_north_mem (hwW : w < W) (hfit : x0 + w ≤ W) {i j : ℕ} (hi : i < w) (hj : j < h) :
    ((((y0 : ℤ) + j) - 1) * W + ((x0 : ℤ) + i) ∈
        (rectComponent x0 y0 w h W).map (fun m : ℕ => (m : ℤ))) ↔ 1 ≤ j := by
  have hW : 0 < W := by omega
  constructor
  · intro hmem
    obtain ⟨j', hj', i', hi', hy, hr⟩ := rect_row_decode hfit _ (((y0 : ℤ) + j) - 1)
      ((x0 : ℤ) + i) (by positivity) (by omega) rfl hW hmem
    omega
  · intro h1
    refine (memZ_rectComponent x0 y0 w h W _).mpr ⟨j - 1, by omega, i, hi, ?_⟩
    have hj1 : ((j - 1 : ℕ) : ℤ) = (j : ℤ) - 1 := by omega
    push_cast [hj1]
    ring

/-- The south neighbour of rectangle pixel `(i, j)` is in the rectangle
exactly when the pixel is not in the bottom row. -/
theorem rect_south_mem (hwW : w < W) (hfit : x0 + w ≤ W) {i j : ℕ} (hi : i < w) (hj : j < h) :
    ((((y0 : ℤ) + j) + 1) * W + ((x0 : ℤ) + i) ∈
        (rectComponent x0 y0 w h W).map (fun m : ℕ => (m : ℤ))) ↔ j + 1 < h := by
  have hW : 0 < W := by omega
  constructor
  · intro hmem
    obtain ⟨j', hj', i', hi', hy, hr⟩ := rect_row_decode hfit _ (((y0 : ℤ) + j) + 1)
      ((x0 : ℤ) + i) (by positivity) (by omega) rfl hW hmem
    omega
  · intro h1
    refine (memZ_rectComponent x0 y0 w h W _).mpr ⟨j + 1, h1, i, hi, ?_⟩
    push_cast
    ring

/-- The west neighbour of rectangle pixel `(i, j)` is in the rectangle
exactly when the pixel is not in the left column (this needs `w < W`: a
rectangle spanning the full image width would wrap around). -/
theorem rect_west_mem (hwW : w < W) (hfit : x0 + w ≤ W) {i j : ℕ} (hi : i < w) (hj : j < h) :
    (((y0 : ℤ) + j) * W + (((x0 : ℤ) + i) - 1) ∈
        (rectComponent x0 y0 w h W).map (fun m : ℕ => (m : ℤ))) ↔ 1 ≤ i := by
  have hW : 0 < W := by omega
  constructor
  · intro hmem
    by_cases hx : 1 ≤ x0 + i
    · obtain ⟨j', hj', i', hi', hy, hr⟩ := rect_row_decode hfit _ ((y0 : ℤ) + j)
        (((x0 : ℤ) + i) - 1) (by omega) (by omega) rfl hW hmem
      omega
    · -- left edge of the image: the neighbour index wraps to the previous
      -- row's last column, which `w < W` keeps outside the rectangle
      have hx0 : x0 = 0 ∧ i = 0 := by omega
      obtain ⟨j', hj', i', hi', hy, hr⟩ := rect_row_decode hfit _ (((y0 : ℤ) + j) - 1)
        ((W : ℤ) - 1) (by omega) (by omega)
        (by push_cast [hx0.1, hx0.2]; ring) hW hmem
      omega
  · intro h1
    refine (memZ_rectComponent x0 y0 w h W _).mpr ⟨j, hj, i - 1, by omega, ?_⟩
    have hi1 : ((i - 1 : ℕ) : ℤ) = (i : ℤ) - 1 := by omega
    push_cast [hi1]
    ring

/-- The east neighbour of rectangle pixel `(i, j)` is in the rectangle
exactly when the pixel is not in the right column. -/
theorem rect_east_mem (hwW : w < W) (hfit : x0 + w ≤ W) {i j : ℕ} (hi : i < w) (hj : j < h) :
    (((y0 : ℤ) + j) * W + (((x0 : ℤ) + i) + 1) ∈
        (rectComponent x0 y0 w h W).map (fun m : ℕ => (m : ℤ))) ↔ i + 1 < w := by
  have hW : 0 < W := by omega
  constructor
  · intro hmem
    by_cases hx : x0 + i + 1 < W
    · obtain ⟨j', hj', i', hi', hy, hr⟩ := rect_row_decode hfit _ ((y0 : ℤ) + j)
        (((x0 : ℤ) + i) + 1) (by positivity) (by omega) rfl hW hmem
      omega
    · -- right edge of the image: the neighbour index wraps to the next
      -- row's first column, which `w < W` keeps outside the rectangle
      have hxW : x0 + i + 1 = W := by omega
      obtain ⟨j', hj', i', hi', hy, hr⟩ := rect_row_decode hfit _ (((y0 : ℤ) + j) + 1)
        0 le_rfl (by omega)
        (by push_cast [← hxW]; ring) hW hmem
      omega
  · intro h1
    refine (memZ_rectComponent x0 y0 w h W _).mpr ⟨j, hj, i + 1, h1, ?_⟩
    push_cast
    ring

/-- The boundary predicate of `calculatePerimeter`, evaluated on a rectangle
pixel: it holds exactly on the rectangle's boundary rows and columns. -/
theorem rect_perimPred (hwW : w < W) (hfit : x0 + w ≤ W) {i j : ℕ} (hi : i < w) (hj : j < h) :
    perimPred (rectComponent x0 y0 w h W) W ((y0 + j) * W + (x0 + i)) =
      decide (j = 0 ∨ j + 1 = h ∨ i = 0 ∨ i + 1 = w) := by
  have hW : 0 < W := by omega
  have hco := @rect_coords x0 y0 w h W hfit hW i j hi hj
  simp only [perimPred, hco.1, hco.2]
  rw [Bool.eq_iff_iff, decide_eq_true_eq]
  simp only [List.elem_eq_mem, List.any_cons, List.any_nil, Bool.or_false, Bool.or_eq_true,
    Bool.not_eq_eq_eq_not, Bool.not_true, decide_eq_false_iff_not]
  push_cast
  rw [rect_north_mem hwW hfit hi hj, rect_south_mem hwW hfit hi hj,
    rect_west_mem hwW hfit hi hj, rect_east_mem hwW hfit hi hj]
  omega

end RectPerimeter

/-- `countP` distributes over `flatMap`. -/
theorem countP_flatMap {α β : Type} (l : List α) (f : α → List β) (p : β → Bool) :
    ((l.flatMap f).countP p) = (l.map fun a => (f a).countP p).sum := by
  induction l with
  | nil => simp
  | cons a t ih => simp [List.flatMap_cons, List.countP_append, ih]

/-- A range counts exactly one zero. -/
theorem countP_range_zeroPred (n : ℕ) :
    (List.range (n + 1)).countP (fun i => decide (i = 0)) = 1 := by
  induction n with
  | zero => decide
  | succ m ih =>
    rw [List.range_succ, List.countP_append, ih]
    simp

/-- A range of length at least two counts exactly its two endpoints. -/
theorem countP_range_ends (w : ℕ) (hw : 2 ≤ w) :
    (List.range w).countP (fun i => decide (i = 0 ∨ i + 1 = w)) = 2 := by
  obtain ⟨k, rfl⟩ : ∃ k, w = k + 2 := ⟨w - 2, by omega⟩
  rw [List.range_succ, List.countP_append]
  have h1 : (List.range (k + 1)).countP (fun i => decide (i = 0 ∨ i + 1 = k + 2)) =
      (List.range (k + 1)).countP (fun i => decide (i = 0)) := by
    apply List.countP_congr
    intro a ha
    rw [List.mem_range] at ha
    simp only [decide_eq_true_eq]
    omega
  rw [h1, countP_range_zeroPred]
  have hp : decide (k + 1 = 0 ∨ k + 1 + 1 = k + 2) = true := by
    simp only [decide_eq_true_eq]
    exact Or.inr trivial
  simp [List.countP_cons, hp]

/-- Sum of a row-count list whose first row counts `w` and later rows 2. -/
theorem sum_if_first (w : ℕ) : ∀ m : ℕ, 1 ≤ m →
    ((List.range m).map (fun j => if j = 0 then w else 2)).sum = w + 2 * (m - 1) := by
  intro m
  induction m with
  | zero => omega
  | succ n ih =>
    intro _
    rcases Nat.eq_zero_or_pos n with hn | hn
    · subst hn
      simp [List.range_succ]
    · rw [List.range_succ, List.map_append, List.sum_append, ih hn]
      have : (if n = 0 then w else 2) = 2 := if_neg (by omega)
      simp only [List.map_cons, List.map_nil, this, List.sum_cons, List.sum_nil]
      omega

/-- Sum of the per-row boundary counts of a `w × h` rectangle. -/
theorem sum_rows (w h : ℕ) (hh : 2 ≤ h) :
    ((List.range h).map (fun j => if j = 0 ∨ j + 1 = h then w else 2)).sum =
      2 * w + 2 * h - 4 := by
  obtain ⟨k, rfl⟩ : ∃ k, h = k + 2 := ⟨h - 2, by omega⟩
  rw [List.range_succ, List.map_append, List.sum_append]
  have h1 : (List.range (k + 1)).map (fun j => if j = 0 ∨ j + 1 = k + 2 then w else 2) =
      (List.range (k + 1)).map (fun j => if j = 0 then w else 2) := by
    apply List.map_congr_left
    intro a ha
    rw [List.mem_range] at ha
    exact if_congr (by omega) rfl rfl
  rw [h1, sum_if_first w (k + 1) (by omega)]
  rw [List.map_cons, List.map_nil, List.sum_cons, List.sum_nil, if_pos (Or.inr rfl)]
  omega

/-- C2 (amended): for a single isolated `w × h` rectangular region with
`w, h ≥ 2` that does not span the full image width, the computed perimeter —
the count of region pixels with at least one 4-neighbour outside the region,
the image border counting as outside — equals `2w + 2h - 4`, the number of
boundary pixels of the rectangle (not `2w + 2h` as the specification
states). -/
theorem calculatePerimeter_rect_eq (x0 y0 w h W H : ℕ)
    (hw : 2 ≤ w) (hh : 2 ≤ h) (hwW : w < W) (hfit : x0 + w ≤ W) :
    calculatePerimeter (rectComponent x0 y0 w h W) W H = 2 * w + 2 * h - 4 := by
  rw [calculatePerimeter]
  rw [show ((rectComponent x0 y0 w h W).countP (perimPred (rectComponent x0 y0 w h W) W)) =
      ((List.range h).map fun j => ((List.range w).map fun i =>
        (y0 + j) * W + (x0 + i)).countP (perimPred (rectComponent x0 y0 w h W) W)).sum from
    countP_flatMap _ _ _]
  have hrow : ∀ j ∈ List.range h,
      (((List.range w).map fun i => (y0 + j) * W + (x0 + i)).countP
        (perimPred (rectComponent x0 y0 w h W) W)) = if j = 0 ∨ j + 1 = h then w else 2 := by
    intro j hj
    rw [List.mem_range] at hj
    rw [List.countP_map]
    have hpt : ∀ i ∈ List.range w,
        ((perimPred (rectComponent x0 y0 w h W) W ∘ fun i => (y0 + j) * W + (x0 + i)) i) =
          decide (j = 0 ∨ j + 1 = h ∨ i = 0 ∨ i + 1 = w) := by
      intro i hi
      rw [List.mem_range] at hi
      exact rect_perimPred hwW hfit hi hj
    rw [List.countP_congr (fun a ha => by rw [hpt a ha])]
    by_cases hb : j = 0 ∨ j + 1 = h
    · rw [if_pos hb]
      rw [List.countP_eq_length.mpr fun a _ => by simp only [decide_eq_true_eq]; tauto]
      exact List.length_range w
    · rw [if_neg hb]
      have hsame : (List.range w).countP (fun i => decide (j = 0 ∨ j + 1 = h ∨ i = 0 ∨ i + 1 = w)) =
          (List.range w).countP (fun i => decide (i = 0 ∨ i + 1 = w)) :=
        List.countP_congr (fun a _ => by simp only [decide_eq_true_eq]; tauto)
      rw [hsame, countP_range_ends w hw]
  rw [List.map_congr_left hrow, sum_rows w h hh]

/-- C2 counterexample: for the isolated 2×2 rectangle inside a 4×4 image the
computed perimeter is 4 (all four pixels are boundary pixels, counted once
each), not `2w + 2h = 8` as the claim states. -/
theorem calculatePerimeter_2x2_counterexample :
    calculatePerimeter (rectComponent 1 1 2 2 4) 4 4 = 4 ∧
      calculatePerimeter (rectComponent 1 1 2 2 4) 4 4 ≠ 2 * 2 + 2 * 2 :=
  ⟨by decide, by decide⟩

/-- Witness for `calculatePerimeter_rect_eq`: the isolated 3×2 rectangle at
`(1, 1)` in a 6×9 image has computed perimeter `2·3 + 2·2 - 4 = 6`. -/
theorem calculatePerimeter_rect_eq_witness :
    2 ≤ 3 ∧ 2 ≤ 2 ∧ 3 < 6 ∧ 1 + 3 ≤ 6 ∧
      calculatePerimeter (rectComponent 1 1 3 2 6) 6 9 = 2 * 3 + 2 * 2 - 4 :=
  ⟨by decide, by decide, by decide, by decide,
    calculatePerimeter_rect_eq 1 1 3 2 6 9 (by decide) (by decide) (by decide) (by decide)⟩

/-! ### Flood-fill invariants (C3, C5, C8, C9) -/

/-- Coordinates and range of the flat index of an in-range stack pair. -/
theorem flatIdxZ_spec (W H : ℕ) (e : ℤ × ℤ) (h : inRangeZ W H e) :
    flatIdxZ W e % W = e.1.toNat ∧ flatIdxZ W e / W = e.2.toNat ∧ flatIdxZ W e < W * H := by
  obtain ⟨hx0, hxW, hy0, hyH⟩ := h
  have hx : ((e.1.toNat : ℕ) : ℤ) = e.1 := Int.toNat_of_nonneg hx0
  have hy : ((e.2.toNat : ℕ) : ℤ) = e.2 := Int.toNat_of_nonneg hy0
  have hxn : e.1.toNat < W := by omega
  have hW : 0 < W := by omega
  have hflat : flatIdxZ W e = e.2.toNat * W + e.1.toNat := by
    unfold flatIdxZ
    have hcast : e.2 * (W : ℤ) + e.1 = ((e.2.toNat * W + e.1.toNat : ℕ) : ℤ) := by
      push_cast
      rw [hx, hy]
    rw [hcast, Int.toNat_natCast]
  refine ⟨?_, ?_, ?_⟩
  · rw [hflat, Nat.mul_comm, Nat.mul_add_mod, Nat.mod_eq_of_lt hxn]
  · rw [hflat, show e.2.toNat * W + e.1.toNat = e.1.toNat + W * e.2.toNat from by ring,
      Nat.add_mul_div_left _ _ hW, Nat.div_eq_of_lt hxn, Nat.zero_add]
  · rw [hflat]
    calc e.2.toNat * W + e.1.toNat < e.2.toNat * W + W := by omega
    _ = (e.2.toNat + 1) * W := by ring
    _ ≤ H * W := Nat.mul_le_mul_right W (by omega)
    _ = W * H := Nat.mul_comm H W

/-- 4-adjacency is symmetric. -/
theorem adjPix_symm {W : ℕ} {a b : ℕ} (h : adjPix W a b) : adjPix W b a := by
  unfold adjPix at h ⊢
  tauto

/-- Each of the four pushed neighbours of an accepted pixel is, when
in range, 4-adjacent to that pixel. -/
theorem adjPix_push {W H : ℕ} {x y : ℤ} (he : inRangeZ W H (x, y)) :
    ∀ e ∈ [(x, y - 1), (x, y + 1), (x - 1, y), (x + 1, y)], inRangeZ W H e →
      adjPix W (flatIdxZ W e) (flatIdxZ W (x, y)) := by
  intro e hmem hr
  have hcx := flatIdxZ_spec W H (x, y) he
  have hce := flatIdxZ_spec W H e hr
  unfold adjPix
  rw [hce.1, hce.2.1, hcx.1, hcx.2.1]
  unfold inRangeZ at he hr
  simp only [List.mem_cons, List.not_mem_nil, or_false] at hmem
  obtain ⟨h1, h2, h3, h4⟩ := he
  obtain ⟨h5, h6, h7, h8⟩ := hr
  rcases hmem with rfl | rfl | rfl | rfl
  all_goals dsimp only at *
  all_goals omega

/-- Unfolding `floodFillAux` at an out-of-range stack head. -/
theorem floodFillAux_step_oob (img : ImageData) (f : ℕ) (x y : ℤ)
    (rest : List (ℤ × ℤ)) (visited : List Bool) (pixels : List ℕ)
    (h1 : x < 0 ∨ (img.width : ℤ) ≤ x ∨ y < 0 ∨ (img.height : ℤ) ≤ y) :
    floodFillAux img (f + 1) ((x, y) :: rest) visited pixels =
      floodFillAux img f rest visited pixels := by
  rw [floodFillAux, if_pos h1]

/-- Unfolding `floodFillAux` at a visited or non-white stack head. -/
theorem floodFillAux_step_skip (img : ImageData) (f : ℕ) (x y : ℤ)
    (rest : List (ℤ × ℤ)) (visited : List Bool) (pixels : List ℕ)
    (h1 : ¬ (x < 0 ∨ (img.width : ℤ) ≤ x ∨ y < 0 ∨ (img.height : ℤ) ≤ y))
    (h2 : visited.getD (y * img.width + x).toNat false = true ∨
      ¬ (isWhitePixel img x y = true)) :
    floodFillAux img (f + 1) ((x, y) :: rest) visited pixels =
      floodFillAux img f rest visited pixels := by
  rw [floodFillAux, if_neg h1]
  exact if_pos h2

/-- Unfolding `floodFillAux` at an accepted stack head. -/
theorem floodFillAux_step_accept (img : ImageData) (f : ℕ) (x y : ℤ)
    (rest : List (ℤ × ℤ)) (visited : List Bool) (pixels : List ℕ)
    (h1 : ¬ (x < 0 ∨ (img.width : ℤ) ≤ x ∨ y < 0 ∨ (img.height : ℤ) ≤ y))
    (h2 : ¬ (visited.getD (y * img.width + x).toNat false = true ∨
      ¬ (isWhitePixel img x y = true))) :
    floodFillAux img (f + 1) ((x, y) :: rest) visited pixels =
      floodFillAux img f
        ((x, y - 1) :: (x, y + 1) :: (x - 1, y) :: (x + 1, y) :: rest)
        (visited.set (y * img.width + x).toNat true)
        (pixels ++ [(y * img.width + x).toNat]) := by
  rw [floodFillAux, if_neg h1]
  exact if_neg h2

/-- The flood-fill result extends the pixels accumulated so far. -/
theorem floodFillAux_pixels_grow (img : ImageData) :
    ∀ (fuel : ℕ) (stack : List (ℤ × ℤ)) (visited : List Bool) (pixels : List ℕ),
      ∃ t, (floodFillAux img fuel stack visited pixels).1 = pixels ++ t := by
  intro fuel
  induction fuel with
  | zero =>
    intro stack visited pixels
    exact ⟨[], by rw [floodFillAux, List.append_nil]⟩
  | succ f ih =>
    intro stack visited pixels
    rcases stack with _ | ⟨⟨x, y⟩, rest⟩
    · exact ⟨[], by rw [floodFillAux, List.append_nil]⟩
    · by_cases h1 : x < 0 ∨ (img.width : ℤ) ≤ x ∨ y < 0 ∨ (img.height : ℤ) ≤ y
      · rw [floodFillAux_step_oob img f x y rest visited pixels h1]
        exact ih rest visited pixels
      · by_cases h2 : visited.getD (y * img.width + x).toNat false = true ∨
          ¬ (isWhitePixel img x y = true)
        · rw [floodFillAux_step_skip img f x y rest visited pixels h1 h2]
          exact ih rest visited pixels
        · rw [floodFillAux_step_accept img f x y rest visited pixels h1 h2]
          obtain ⟨t, ht⟩ := ih ((x, y - 1) :: (x, y + 1) :: (x - 1, y) :: (x + 1, y) :: rest)
            (visited.set (y * img.width + x).toNat true)
            (pixels ++ [(y * img.width + x).toNat])
          exact ⟨(y * img.width + x).toNat :: t, by rw [ht]; simp⟩

/-- Every pixel the flood fill adds is a white (foreground) pixel. -/
theorem floodFillAux_white (img : ImageData) :
    ∀ (fuel : ℕ) (stack : List (ℤ × ℤ)) (visited : List Bool) (pixels : List ℕ),
      (∀ p ∈ pixels, foregroundIdx img p = true) →
      ∀ p ∈ (floodFillAux img fuel stack visited pixels).1, foregroundIdx img p = true := by
  intro fuel
  induction fuel with
  | zero =>
    intro stack visited pixels hpix
    rw [floodFillAux]
    exact hpix
  | succ f ih =>
    intro stack visited pixels hpix
    rcases stack with _ | ⟨⟨x, y⟩, rest⟩
    · rw [floodFillAux]
      exact hpix
    · by_cases h1 : x < 0 ∨ (img.width : ℤ) ≤ x ∨ y < 0 ∨ (img.height : ℤ) ≤ y
      · rw [floodFillAux_step_oob img f x y rest visited pixels h1]
        exact ih rest visited pixels hpix
      · by_cases h2 : visited.getD (y * img.width + x).toNat false = true ∨
          ¬ (isWhitePixel img x y = true)
        · rw [floodFillAux_step_skip img f x y rest visited pixels h1 h2]
          exact ih rest visited pixels hpix
        · rw [floodFillAux_step_accept img f x y rest visited pixels h1 h2]
          push_neg at h1 h2
          apply ih
          intro p hp
          rw [List.mem_append] at hp
          rcases hp with hp | hp
          · exact hpix p hp
          · rw [List.mem_singleton] at hp
            subst hp
            have hrange : inRangeZ img.width img.height (x, y) :=
              ⟨h1.1, h1.2.1, h1.2.2.1, h1.2.2.2⟩
            have hc := flatIdxZ_spec img.width img.height (x, y) hrange
            show foregroundIdx img (flatIdxZ img.width (x, y)) = true
            unfold foregroundIdx
            rw [hc.1, hc.2.1, Int.toNat_of_nonneg h1.1, Int.toNat_of_nonneg h1.2.2.1]
            exact h2.2

/-- `List.getD` after setting the same position. -/
theorem getD_set_self (l : List Bool) (i : ℕ) (h : i < l.length) :
    (l.set i true).getD i false = true := by
  simp [List.getD_eq_getElem?_getD, List.getElem?_set_self, h]

/-- `List.getD` after setting a different position. -/
theorem getD_set_ne (l : List Bool) (i j : ℕ) (b : Bool) (h : i ≠ j) :
    (l.set i b).getD j false = l.getD j false := by
  simp [List.getD_eq_getElem?_getD, List.getElem?_set_ne h]

/-- The flood fill never changes the length of the visited array. -/
theorem floodFillAux_visited_length (img : ImageData) :
    ∀ (fuel : ℕ) (stack : List (ℤ × ℤ)) (visited : List Bool) (pixels : List ℕ),
      ((floodFillAux img fuel stack visited pixels).2).length = visited.length := by
  intro fuel
  induction fuel with
  | zero =>
    intro stack visited pixels
    rw [floodFillAux]
  | succ f ih =>
    intro stack visited pixels
    rcases stack with _ | ⟨⟨x, y⟩, rest⟩
    · rw [floodFillAux]
    · by_cases h1 : x < 0 ∨ (img.width : ℤ) ≤ x ∨ y < 0 ∨ (img.height : ℤ) ≤ y
      · rw [floodFillAux_step_oob img f x y rest visited pixels h1]
        exact ih rest visited pixels
      · by_cases h2 : visited.getD (y * img.width + x).toNat false = true ∨
          ¬ (isWhitePixel img x y = true)
        · rw [floodFillAux_step_skip img f x y rest visited pixels h1 h2]
          exact ih rest visited pixels
        · rw [floodFillAux_step_accept img f x y rest visited pixels h1 h2]
          rw [ih, List.length_set]

/-- The pixel list the flood fill produces has no duplicates: a pixel is
appended only while unvisited and is marked visited at that moment. -/
theorem floodFillAux_nodup (img : ImageData) :
    ∀ (fuel : ℕ) (stack : List (ℤ × ℤ)) (visited : List Bool) (pixels : List ℕ),
      visited.length = img.width * img.height →
      pixels.Nodup →
      (∀ p ∈ pixels, visited.getD p false = true) →
      (floodFillAux img fuel stack visited pixels).1.Nodup := by
  intro fuel
  induction fuel with
  | zero =>
    intro stack visited pixels _ hnd _
    rw [floodFillAux]
    exact hnd
  | succ f ih =>
    intro stack visited pixels hlen hnd hmarks
    rcases stack with _ | ⟨⟨x, y⟩, rest⟩
    · rw [floodFillAux]
      exact hnd
    · by_cases h1 : x < 0 ∨ (img.width : ℤ) ≤ x ∨ y < 0 ∨ (img.height : ℤ) ≤ y
      · rw [floodFillAux_step_oob img f x y rest visited pixels h1]
        exact ih rest visited pixels hlen hnd hmarks
      · by_cases h2 : visited.getD (y * img.width + x).toNat false = true ∨
          ¬ (isWhitePixel img x y = true)
        · rw [floodFillAux_step_skip img f x y rest visited pixels h1 h2]
          exact ih rest visited pixels hlen hnd hmarks
        · rw [floodFillAux_step_accept img f x y rest visited pixels h1 h2]
          push_neg at h1 h2
          have hrange : inRangeZ img.width img.height (x, y) :=
            ⟨h1.1, h1.2.1, h1.2.2.1, h1.2.2.2⟩
          have hbound : (y * img.width + x).toNat < img.width * img.height :=
            (flatIdxZ_spec img.width img.height (x, y) hrange).2.2
          have hnotmem : (y * img.width + x).toNat ∉ pixels := by
            intro hmem
            exact h2.1 (hmarks _ hmem)
          apply ih
          · rw [List.length_set]
            exact hlen
          · simp [List.nodup_append, hnd, hnotmem]
          · intro p hp
            rw [List.mem_append] at hp
            rcases hp with hp | hp
            · by_cases hpe : p = (y * img.width + x).toNat
              · subst hpe
                exact getD_set_self visited _ (hlen ▸ hbound)
              · rw [getD_set_ne visited _ p true (fun hh => hpe hh.symm)]
                exact hmarks p hp
            · rw [List.mem_singleton] at hp
              subst hp
              exact getD_set_self visited _ (hlen ▸ hbound)

/-- Connectivity invariant of the flood fill: starting from a single seed,
every pair of pixels in the produced list is joined by a 4-adjacent path
inside the list. -/
theorem floodFillAux_conn (img : ImageData) :
    ∀ (fuel : ℕ) (stack : List (ℤ × ℤ)) (visited : List Bool) (pixels : List ℕ),
      ((pixels = [] ∧ ∃ s, stack = [s]) ∨
        (∀ e ∈ stack, inRangeZ img.width img.height e →
          ∃ a ∈ pixels, adjPix img.width (flatIdxZ img.width e) a)) →
      (∀ a ∈ pixels, ∀ b ∈ pixels,
        reachIn img.width ((floodFillAux img fuel stack visited pixels).1) a b) →
      ∀ a ∈ (floodFillAux img fuel stack visited pixels).1,
        ∀ b ∈ (floodFillAux img fuel stack visited pixels).1,
          reachIn img.width ((floodFillAux img fuel stack visited pixels).1) a b := by
  intro fuel
  induction fuel with
  | zero =>
    intro stack visited pixels _ hpix
    rw [floodFillAux] at hpix ⊢
    exact hpix
  | succ f ih =>
    intro stack visited pixels hstack hpix
    rcases stack with _ | ⟨⟨x, y⟩, rest⟩
    · rw [floodFillAux] at hpix ⊢
      exact hpix
    · by_cases h1 : x < 0 ∨ (img.width : ℤ) ≤ x ∨ y < 0 ∨ (img.height : ℤ) ≤ y
      · rw [floodFillAux_step_oob img f x y rest visited pixels h1] at hpix ⊢
        apply ih rest visited pixels ?_ hpix
        rcases hstack with ⟨hemp, s, hs⟩ | hadj
        · right
          intro e he
          rw [(List.cons.injEq _ _ _ _).mp hs |>.2] at he
          exact absurd he (List.not_mem_nil e)
        · exact Or.inr fun e he hre => hadj e (List.mem_cons_of_mem _ he) hre
      · by_cases h2 : visited.getD (y * img.width + x).toNat false = true ∨
          ¬ (isWhitePixel img x y = true)
        · rw [floodFillAux_step_skip img f x y rest visited pixels h1 h2] at hpix ⊢
          apply ih rest visited pixels ?_ hpix
          rcases hstack with ⟨hemp, s, hs⟩ | hadj
          · right
            intro e he
            rw [(List.cons.injEq _ _ _ _).mp hs |>.2] at he
            exact absurd he (List.not_mem_nil e)
          · exact Or.inr fun e he hre => hadj e (List.mem_cons_of_mem _ he) hre
        · rw [floodFillAux_step_accept img f x y rest visited pixels h1 h2] at hpix ⊢
          push_neg at h1
          have hrange : inRangeZ img.width img.height (x, y) :=
            ⟨h1.1, h1.2.1, h1.2.2.1, h1.2.2.2⟩
          have hidx : flatIdxZ img.width (x, y) = (y * img.width + x).toNat := rfl
          obtain ⟨t, ht⟩ := floodFillAux_pixels_grow img f
            ((x, y - 1) :: (x, y + 1) :: (x - 1, y) :: (x + 1, y) :: rest)
            (visited.set (y * img.width + x).toNat true)
            (pixels ++ [(y * img.width + x).toNat])
          have hidxR : (y * img.width + x).toNat ∈
              (floodFillAux img f
                ((x, y - 1) :: (x, y + 1) :: (x - 1, y) :: (x + 1, y) :: rest)
                (visited.set (y * img.width + x).toNat true)
                (pixels ++ [(y * img.width + x).toNat])).1 := by
            rw [ht]
            simp
          have hsubR : ∀ p ∈ pixels, p ∈
              (floodFillAux img f
                ((x, y - 1) :: (x, y + 1) :: (x - 1, y) :: (x + 1, y) :: rest)
                (visited.set (y * img.width + x).toNat true)
                (pixels ++ [(y * img.width + x).toNat])).1 := by
            intro p hp
            rw [ht]
            simp [hp]
          have hnewpix : ∀ a ∈ pixels ++ [(y * img.width + x).toNat],
              ∀ b ∈ pixels ++ [(y * img.width + x).toNat],
                reachIn img.width
                  ((floodFillAux img f
                    ((x, y - 1) :: (x, y + 1) :: (x - 1, y) :: (x + 1, y) :: rest)
                    (visited.set (y * img.width + x).toNat true)
                    (pixels ++ [(y * img.width + x).toNat])).1) a b := by
            have hsym : Symmetric (fun u v => u ∈
                (floodFillAux img f
                  ((x, y - 1) :: (x, y + 1) :: (x - 1, y) :: (x + 1, y) :: rest)
                  (visited.set (y * img.width + x).toNat true)
                  (pixels ++ [(y * img.width + x).toNat])).1 ∧ v ∈
                (floodFillAux img f
                  ((x, y - 1) :: (x, y + 1) :: (x - 1, y) :: (x + 1, y) :: rest)
                  (visited.set (y * img.width + x).toNat true)
                  (pixels ++ [(y * img.width + x).toNat])).1 ∧
                adjPix img.width u v) := by
              rintro u v ⟨hu, hv, hadj⟩
              exact ⟨hv, hu, adjPix_symm hadj⟩
            have hreach_to_idx : ∀ a ∈ pixels,
                reachIn img.width
                  ((floodFillAux img f
                    ((x, y - 1) :: (x, y + 1) :: (x - 1, y) :: (x + 1, y) :: rest)
                    (visited.set (y * img.width + x).toNat true)
                    (pixels ++ [(y * img.width + x).toNat])).1) a
                  ((y * img.width + x).toNat) := by
              intro a ha
              rcases hstack with ⟨hemp, _⟩ | hadj
              · rw [hemp] at ha
                exact absurd ha (List.not_mem_nil a)
              · obtain ⟨a0, ha0, hadj0⟩ := hadj (x, y) (List.mem_cons_self _ _) hrange
                rw [hidx] at hadj0
                exact Relation.ReflTransGen.tail (hpix a ha a0 ha0)
                  ⟨hsubR a0 ha0, hidxR, adjPix_symm hadj0⟩
            intro a ha b hb
            rw [List.mem_append, List.mem_singleton] at ha hb
            rcases ha with ha | ha <;> rcases hb with hb | hb
            · exact hpix a ha b hb
            · subst hb
              exact hreach_to_idx a ha
            · subst ha
              exact (Relation.ReflTransGen.symmetric hsym) (hreach_to_idx b hb)
            · subst ha
              subst hb
              exact Relation.ReflTransGen.refl
          apply ih _ _ _ ?_ hnewpix
          right
          intro e he hre
          simp only [List.mem_cons] at he
          rcases he with rfl | rfl | rfl | rfl | he
          · exact ⟨(y * img.width + x).toNat, by simp, by
              rw [← hidx]
              exact adjPix_push hrange (x, y - 1) (by simp) hre⟩
          · exact ⟨(y * img.width + x).toNat, by simp, by
              rw [← hidx]
              exact adjPix_push hrange (x, y + 1) (by simp) hre⟩
          · exact ⟨(y * img.width + x).toNat, by simp, by
              rw [← hidx]
              exact adjPix_push hrange (x - 1, y) (by simp) hre⟩
          · exact ⟨(y * img.width + x).toNat, by simp, by
              rw [← hidx]
              exact adjPix_push hrange (x + 1, y) (by simp) hre⟩
          · rcases hstack with ⟨hemp, s, hs⟩ | hadj
            · rw [(List.cons.injEq _ _ _ _).mp hs |>.2] at he
              exact absurd he (List.not_mem_nil e)
            · obtain ⟨a0, ha0, hadj0⟩ := hadj e (List.mem_cons_of_mem _ he) hre
              exact ⟨a0, by simp [ha0], hadj0⟩

/-- The first pixel a flood fill accepts is its seed: started at an
unvisited white in-range position, the result list begins with that
position's flat index. -/
theorem floodFill_head (img : ImageData) (x y : ℕ) (visited : List Bool)
    (hx : x < img.width) (hy : y < img.height)
    (hv : ¬ visited.getD (y * img.width + x) false = true)
    (hw : isWhitePixel img x y = true) :
    ∃ t, (floodFill img x y visited).1 = (y * img.width + x) :: t := by
  have hfuel : fccFuel img = (4 * (img.width * img.height) + 4) + 1 := rfl
  rw [floodFill, hfuel]
  have h1 : ¬ ((x : ℤ) < 0 ∨ (img.width : ℤ) ≤ (x : ℤ) ∨ (y : ℤ) < 0 ∨
      (img.height : ℤ) ≤ (y : ℤ)) := by
    push_neg
    refine ⟨by positivity, by exact_mod_cast hx, by positivity, by exact_mod_cast hy⟩
  have hidx : (((y : ℤ) * img.width + (x : ℤ)).toNat) = y * img.width + x := by
    rw [show ((y : ℤ) * img.width + (x : ℤ)) = ((y * img.width + x : ℕ) : ℤ) from by
      push_cast; ring, Int.toNat_natCast]
  have h2 : ¬ (visited.getD (((y : ℤ) * img.width + (x : ℤ)).toNat) false = true ∨
      ¬ (isWhitePixel img x y = true)) := by
    rw [hidx]
    push_neg
    exact ⟨hv, hw⟩
  rw [floodFillAux_step_accept img _ (x : ℤ) (y : ℤ) [] visited [] h1 h2]
  obtain ⟨t, ht⟩ := floodFillAux_pixels_grow img (4 * (img.width * img.height) + 4)
    (((x : ℤ), (y : ℤ) - 1) :: ((x : ℤ), (y : ℤ) + 1) ::
      ((x : ℤ) - 1, (y : ℤ)) :: ((x : ℤ) + 1, (y : ℤ)) :: [])
    (visited.set (((y : ℤ) * img.width + (x : ℤ)).toNat) true)
    ([] ++ [(((y : ℤ) * img.width + (x : ℤ)).toNat)])
  refine ⟨t, ?_⟩
  rw [ht, hidx]
  simp

/-- Every component a full flood fill from a fresh seed produces satisfies
the component invariants, provided it passes the size filter. -/
theorem floodFill_good (img : ImageData) (x y : ℕ) (visited : List Bool)
    (hlen : visited.length = img.width * img.height)
    (h50 : 50 < (floodFill img x y visited).1.length) :
    goodComponent img (floodFill img x y visited).1 := by
  refine ⟨List.ne_nil_of_length_pos (by omega), h50, ?_, ?_, ?_⟩
  · exact floodFillAux_nodup img (fccFuel img) _ visited [] hlen List.nodup_nil
      (fun p hp => absurd hp (List.not_mem_nil p))
  · exact floodFillAux_white img (fccFuel img) _ visited []
      (fun p hp => absurd hp (List.not_mem_nil p))
  · exact floodFillAux_conn img (fccFuel img) _ visited []
      (Or.inl ⟨rfl, ⟨((x : ℤ), (y : ℤ)), rfl⟩⟩)
      (fun a ha => absurd ha (List.not_mem_nil a))

/-- `fccScan` at a visited or non-white scan position. -/
theorem fccScan_step_skip (img : ImageData) (x y : ℕ) (rest : List (ℕ × ℕ))
    (visited : List Bool) (comps : List (List ℕ))
    (h : ¬ (¬ visited.getD (y * img.width + x) false = true ∧ isWhitePixel img x y = true)) :
    fccScan img ((x, y) :: rest) visited comps = fccScan img rest visited comps := by
  rw [fccScan]
  exact if_neg h

/-- `fccScan` at a fresh white position whose component passes the filter. -/
theorem fccScan_step_keep (img : ImageData) (x y : ℕ) (rest : List (ℕ × ℕ))
    (visited : List Bool) (comps : List (List ℕ))
    (h : ¬ visited.getD (y * img.width + x) false = true ∧ isWhitePixel img x y = true)
    (h50 : 50 < (floodFill img x y visited).1.length) :
    fccScan img ((x, y) :: rest) visited comps =
      fccScan img rest (floodFill img x y visited).2
        (comps ++ [(floodFill img x y visited).1]) := by
  rw [fccScan, if_pos h]
  exact if_pos h50

/-- `fccScan` at a fresh white position whose component fails the filter. -/
theorem fccScan_step_drop (img : ImageData) (x y : ℕ) (rest : List (ℕ × ℕ))
    (visited : List Bool) (comps : List (List ℕ))
    (h : ¬ visited.getD (y * img.width + x) false = true ∧ isWhitePixel img x y = true)
    (h50 : ¬ 50 < (floodFill img x y visited).1.length) :
    fccScan img ((x, y) :: rest) visited comps =
      fccScan img rest (floodFill img x y visited).2 comps := by
  rw [fccScan, if_pos h]
  exact if_neg h50

/-- The flat indices of the scan order are exactly `0, …, H·W - 1`. -/
theorem scanOrder_map_flat (W : ℕ) :
    ∀ H, (scanOrder W H).map (fun e => e.2 * W + e.1) = List.range (H * W) := by
  intro H
  induction H with
  | zero => simp [scanOrder]
  | succ n ih =>
    rw [scanOrder, List.range_succ, List.flatMap_append, List.map_append]
    rw [show ((List.range n).flatMap fun y => (List.range W).map fun x => (x, y)) =
      scanOrder W n from rfl, ih]
    rw [show (n + 1) * W = n * W + W from by ring, List.range_add]
    congr 1
    rw [List.flatMap_cons, List.flatMap_nil, List.append_nil, List.map_map]
    apply List.map_congr_left
    intro a _
    rfl

/-- The scan order is strictly increasing in flat index. -/
theorem scanOrder_pairwise (W H : ℕ) :
    List.Pairwise (fun e f : ℕ × ℕ => e.2 * W + e.1 < f.2 * W + f.1) (scanOrder W H) := by
  have h := List.pairwise_lt_range (H * W)
  rw [← scanOrder_map_flat W H] at h
  exact List.pairwise_map.mp h

/-- Membership in the scan order is exactly being an in-range position. -/
theorem mem_scanOrder (W H : ℕ) (e : ℕ × ℕ) :
    e ∈ scanOrder W H ↔ e.1 < W ∧ e.2 < H := by
  rcases e with ⟨x, y⟩
  simp only [scanOrder, List.mem_flatMap, List.mem_map, List.mem_range]
  constructor
  · rintro ⟨y', hy', x', hx', heq⟩
    rw [Prod.mk.injEq] at heq
    obtain ⟨rfl, rfl⟩ := heq
    exact ⟨hx', hy'⟩
  · rintro ⟨hx, hy⟩
    exact ⟨y, hy, x, hx, rfl⟩

/-- Master invariant of the component scan: starting from well-formed
accumulators, every component the scan returns satisfies the component
invariants, and the components' first (seed) pixels are strictly increasing
in row-major order — the discovery order of the scan. -/
theorem fccScan_master (img : ImageData) :
    ∀ (scan : List (ℕ × ℕ)) (visited : List Bool) (comps : List (List ℕ)),
      visited.length = img.width * img.height →
      (∀ e ∈ scan, e.1 < img.width ∧ e.2 < img.height) →
      List.Pairwise (fun e f : ℕ × ℕ =>
        e.2 * img.width + e.1 < f.2 * img.width + f.1) scan →
      (∀ c ∈ comps, goodComponent img c) →
      List.Pairwise (· < ·) (comps.map fun c => c.headD 0) →
      (∀ c ∈ comps, ∀ e ∈ scan, c.headD 0 < e.2 * img.width + e.1) →
      (∀ c ∈ (fccScan img scan visited comps).1, goodComponent img c) ∧
        List.Pairwise (· < ·) ((fccScan img scan visited comps).1.map fun c => c.headD 0) := by
  intro scan
  induction scan with
  | nil =>
    intro visited comps _ _ _ hcomps hpw _
    rw [fccScan]
    exact ⟨hcomps, hpw⟩
  | cons e rest ih =>
    rcases e with ⟨x, y⟩
    intro visited comps hlen hscan hsorted hcomps hpw hheads
    have hxy := hscan (x, y) (List.mem_cons_self _ _)
    have hrestscan : ∀ e ∈ rest, e.1 < img.width ∧ e.2 < img.height :=
      fun e he => hscan e (List.mem_cons_of_mem _ he)
    have hrestsorted := (List.pairwise_cons.mp hsorted).2
    have hcur_lt_rest := (List.pairwise_cons.mp hsorted).1
    by_cases hg : ¬ visited.getD (y * img.width + x) false = true ∧
      isWhitePixel img x y = true
    · by_cases h50 : 50 < (floodFill img x y visited).1.length
      · rw [fccScan_step_keep img x y rest visited comps hg h50]
        have hvlen : ((floodFill img x y visited).2).length = img.width * img.height := by
          rw [floodFill, floodFillAux_visited_length]
          exact hlen
        obtain ⟨t, ht⟩ := floodFill_head img x y visited hxy.1 hxy.2 hg.1 hg.2
        have hhead : ((floodFill img x y visited).1).headD 0 = y * img.width + x := by
          rw [ht]
          rfl
        apply ih (floodFill img x y visited).2 (comps ++ [(floodFill img x y visited).1])
          hvlen hrestscan hrestsorted
        · intro c hc
          rw [List.mem_append, List.mem_singleton] at hc
          rcases hc with hc | hc
          · exact hcomps c hc
          · subst hc
            exact floodFill_good img x y visited hlen h50
        · rw [List.map_append, List.pairwise_append]
          refine ⟨hpw, by simp, ?_⟩
          intro a ha b hb
          rw [List.mem_map] at ha
          obtain ⟨c, hc, rfl⟩ := ha
          simp only [List.map_cons, List.map_nil, List.mem_singleton] at hb
          subst hb
          rw [hhead]
          exact hheads c hc (x, y) (List.mem_cons_self _ _)
        · intro c hc f hf
          rw [List.mem_append, List.mem_singleton] at hc
          rcases hc with hc | hc
          · exact hheads c hc f (List.mem_cons_of_mem _ hf)
          · subst hc
            rw [hhead]
            exact hcur_lt_rest f hf
      · rw [fccScan_step_drop img x y rest visited comps hg h50]
        have hvlen : ((floodFill img x y visited).2).length = img.width * img.height := by
          rw [floodFill, floodFillAux_visited_length]
          exact hlen
        exact ih (floodFill img x y visited).2 comps hvlen hrestscan hrestsorted hcomps hpw
          (fun c hc f hf => hheads c hc f (List.mem_cons_of_mem _ hf))
    · rw [fccScan_step_skip img x y rest visited comps hg]
      exact ih visited comps hlen hrestscan hrestsorted hcomps hpw
        (fun c hc f hf => hheads c hc f (List.mem_cons_of_mem _ hf))

/-- The component invariants and seed ordering of `findConnectedComponents`. -/
theorem findConnectedComponents_good (img : ImageData) :
    (∀ c ∈ (findConnectedComponents img).components, goodComponent img c) ∧
      List.Pairwise (· < ·)
        ((findConnectedComponents img).components.map fun c => c.headD 0) := by
  apply fccScan_master img (scanOrder img.width img.height)
    (List.replicate (img.width * img.height) false) []
  · exact List.length_replicate _ _
  · intro e he
    exact (mem_scanOrder img.width img.height e).mp he
  · exact scanOrder_pairwise img.width img.height
  · intro c hc
    exact absurd hc (List.not_mem_nil c)
  · simp
  · intro c hc
    exact absurd hc (List.not_mem_nil c)

/-- A list stands in positional relation with the mapped image of its
enumeration whenever the relation holds at every index-element pair. -/
theorem forall₂_enumFrom_map {α β : Type} (R : α → β → Prop) (F : ℕ × α → β)
    (h : ∀ i a, R a (F (i, a))) :
    ∀ (l : List α) (k : ℕ), List.Forall₂ R l ((l.enumFrom k).map F) := by
  intro l
  induction l with
  | nil => intro k; simp
  | cons a t ih =>
    intro k
    rw [List.enumFrom_cons, List.map_cons]
    exact List.Forall₂.cons (h k a) (ih (k + 1))

/-- The first element of a non-empty list, via `getD`, is a member. -/
theorem getD_zero_mem {α : Type} (l : List α) (d : α) (h : 0 < l.length) :
    l.getD 0 d ∈ l := by
  rw [List.getD_eq_getElem?_getD, List.getElem?_eq_getElem h]
  exact List.getElem_mem h

/-- The `index + 1` identifiers of an enumerated map are `1, …, n`. -/
theorem enum_map_succ {α : Type} (l : List α) :
    (l.enum.map fun ic => ic.1 + 1) = List.range' 1 l.length := by
  have h1 : (l.enum.map fun ic => ic.1 + 1) = (l.enum.map Prod.fst).map (· + 1) := by
    rw [List.map_map]
    rfl
  rw [h1, List.enum_map_fst, List.range'_eq_map_range]
  apply List.map_congr_left
  intro a _
  exact Nat.add_comm a 1

/-- C3 counterexample: with border exclusion claimed on by default, a fully
foreground 8×7 image should produce zero regions; the code instead keeps
the single frame-spanning component, which contains the border pixel 0. -/
theorem borderExclusion_absent_counterexample :
    (findConnectedComponents (whiteImg 8 7)).components.length ≠ 0 ∧
      0 ∈ ((findConnectedComponents (whiteImg 8 7)).components.headD []) :=
  ⟨by decide, by decide⟩

/-- C3 (amended): no border exclusion is performed — a fully foreground 8×7
image yields exactly one region, spanning the whole frame (all 56 pixels),
border pixels included. -/
theorem borderExclusion_absent :
    (findConnectedComponents (whiteImg 8 7)).components.length = 1 ∧
      ((findConnectedComponents (whiteImg 8 7)).components.headD []).length = 8 * 7 :=
  ⟨by decide, by decide⟩

/-- C5 (amended): a discovered component is kept only when its pixel count
is *strictly greater* than 50; in particular every kept component has at
least 51 pixels, and a component of exactly 50 pixels is discarded (see the
counterexample). -/
theorem minSizeFilter_strict (img : ImageData) :
    ∀ c ∈ (findConnectedComponents img).components, 50 < c.length :=
  fun c hc => ((findConnectedComponents_good img).1 c hc).2.1

/-- Witness for `minSizeFilter_strict` on a concrete 9×6 all-white image. -/
theorem minSizeFilter_strict_witness :
    50 < ((findConnectedComponents (whiteImg 9 6)).components.getD 0 []).length :=
  minSizeFilter_strict (whiteImg 9 6) _ (by decide)

/-- C5 counterexample: on a fully white 10×5 image the flood fill discovers
a component of exactly 50 pixels, and the filter discards it — the claim
says a 50-pixel component is kept. -/
theorem minSizeFilter_drops_exactly_50 :
    (floodFill (whiteImg 10 5) 0 0 (List.replicate (10 * 5) false)).1.length = 50 ∧
      (findConnectedComponents (whiteImg 10 5)).components = [] :=
  ⟨by decide, by decide⟩

/-- C9: every region produced by the component discovery is a non-empty
4-connected set of foreground pixels; the feature records carry dense
identifiers `1, …, n` assigned in list order, strictly ascending, one record
per region; and the regions' seed pixels are strictly increasing in
row-major order — the discovery order of the scan. -/
theorem regions_invariants (originalImageData segmentationImageData : ImageData)
    (dapiChannel : ℕ) :
    (∀ c ∈ (findConnectedComponents segmentationImageData).components,
      c ≠ [] ∧ (∀ p ∈ c, foregroundIdx segmentationImageData p = true) ∧
        (∀ p ∈ c, ∀ q ∈ c, reachIn segmentationImageData.width c p q)) ∧
    ((extractMorphometricFeatures originalImageData segmentationImageData dapiChannel).map
        (fun f => f.nucleusId) =
      List.range' 1 (findConnectedComponents segmentationImageData).components.length) ∧
    List.Chain' (· < ·)
      ((extractMorphometricFeatures originalImageData segmentationImageData dapiChannel).map
        (fun f => f.nucleusId)) ∧
    (extractMorphometricFeatures originalImageData segmentationImageData dapiChannel).length =
      (findConnectedComponents segmentationImageData).components.length ∧
    List.Pairwise (· < ·)
      ((findConnectedComponents segmentationImageData).components.map fun c => c.headD 0) := by
  have hgood := findConnectedComponents_good segmentationImageData
  have hids : (extractMorphometricFeatures originalImageData segmentationImageData
      dapiChannel).map (fun f => f.nucleusId) =
      List.range' 1 (findConnectedComponents segmentationImageData).components.length := by
    rw [extractMorphometricFeatures, List.map_map, ← enum_map_succ]
    rfl
  refine ⟨?_, hids, ?_, ?_, hgood.2⟩
  · intro c hc
    obtain ⟨hne, _, _, hwhite, hconn⟩ := hgood.1 c hc
    exact ⟨hne, hwhite, hconn⟩
  · rw [hids]
    apply List.Pairwise.chain'
    rw [List.range'_eq_map_range]
    rw [List.pairwise_map]
    exact (List.pairwise_lt_range _).imp fun h => by omega
  · rw [extractMorphometricFeatures, List.length_map, List.enum_length]

/-- Witness for `regions_invariants`: the single region of a concrete
all-white 7×8 image is non-empty. -/
theorem regions_invariants_witness :
    ((findConnectedComponents (whiteImg 7 8)).components.getD 0 []) ≠ [] :=
  ((regions_invariants (whiteImg 7 8) (whiteImg 7 8) 0).1 _ (by decide)).1

/-- C8: each feature record's area is exactly the pixel count of its region
(regions are duplicate-free); circularity is 0 whenever the perimeter is 0,
with no division performed; and the clamped circularity always lies in
`[0, 1]`. -/
theorem features_safety (originalImageData segmentationImageData : ImageData)
    (dapiChannel : ℕ) :
    List.Forall₂ (fun c f => f.area = c.length)
      (findConnectedComponents segmentationImageData).components
      (extractMorphometricFeatures originalImageData segmentationImageData dapiChannel) ∧
    (∀ c ∈ (findConnectedComponents segmentationImageData).components, c.Nodup) ∧
    (∀ f ∈ extractMorphometricFeatures originalImageData segmentationImageData dapiChannel,
      0 ≤ f.circularity ∧ f.circularity ≤ 1) ∧
    (∀ a : ℕ, calculateCircularity a 0 = 0) := by
  refine ⟨?_, ?_, ?_, ?_⟩
  · rw [extractMorphometricFeatures]
    apply forall₂_enumFrom_map
    intro i a
    rfl
  · intro c hc
    exact ((findConnectedComponents_good segmentationImageData).1 c hc).2.2.1
  · intro f hf
    rw [extractMorphometricFeatures, List.mem_map] at hf
    obtain ⟨ic, _, rfl⟩ := hf
    constructor
    · exact le_min (by norm_num) (le_max_left 0 _)
    · exact min_le_left 1 _
  · intro a
    rw [calculateCircularity, if_pos rfl]

/-- Witness for `features_safety`: the circularity of the first feature of a
concrete all-white 6×9 image lies in `[0, 1]`. -/
theorem features_safety_witness :
    0 ≤ ((extractMorphometricFeatures (whiteImg 6 9) (whiteImg 6 9) 0).getD 0
        ⟨0, 0, 0, 0, 0⟩).circularity ∧
      ((extractMorphometricFeatures (whiteImg 6 9) (whiteImg 6 9) 0).getD 0
        ⟨0, 0, 0, 0, 0⟩).circularity ≤ 1 := by
  have hlen : 0 < (extractMorphometricFeatures (whiteImg 6 9) (whiteImg 6 9) 0).length := by
    rw [extractMorphometricFeatures, List.length_map, List.enum_length]
    decide
  exact (features_safety (whiteImg 6 9) (whiteImg 6 9) 0).2.2.1 _
    (getD_zero_mem _ _ hlen)

/-! ### JavaScript-number computation lemmas and the t-test (C6) -/

/-- Division of two finite JavaScript numbers with non-zero divisor. -/
theorem jdiv_num_num (a b : ℝ) (hb : b ≠ 0) :
    jdiv (JNum.num a) (JNum.num b) = JNum.num (a / b) := by
  show (if b = 0 then _ else _) = _
  rw [if_neg hb]

/-- Addition of finite JavaScript numbers. -/
theorem jadd_num_num (a b : ℝ) : jadd (JNum.num a) (JNum.num b) = JNum.num (a + b) :=
  rfl

/-- Subtraction of finite JavaScript numbers. -/
theorem jsub_num_num (a b : ℝ) : jsub (JNum.num a) (JNum.num b) = JNum.num (a - b) := by
  show JNum.num (a + -b) = JNum.num (a - b)
  rw [← sub_eq_add_neg]

/-- Multiplication of finite JavaScript numbers. -/
theorem jmul_num_num (a b : ℝ) : jmul (JNum.num a) (JNum.num b) = JNum.num (a * b) :=
  rfl

/-- Absolute value of a finite JavaScript number. -/
theorem jabs_num (a : ℝ) : jabs (JNum.num a) = JNum.num |a| :=
  rfl

/-- Square root of a non-negative finite JavaScript number. -/
theorem jsqrt_num (a : ℝ) (h : 0 ≤ a) : jsqrt (JNum.num a) = JNum.num (Real.sqrt a) := by
  show (if a < 0 then _ else _) = _
  rw [if_neg (not_lt.mpr h)]

/-- Minimum of finite JavaScript numbers. -/
theorem jmin_num_num (a b : ℝ) : jmin (JNum.num a) (JNum.num b) = JNum.num (min a b) :=
  rfl

/-- Maximum of finite JavaScript numbers. -/
theorem jmax_num_num (a b : ℝ) : jmax (JNum.num a) (JNum.num b) = JNum.num (max a b) :=
  rfl

/-- C6 (amended): on two identical non-degenerate datasets — at least two
values, non-zero variance — the t-test score is exactly 1, the
implementation's maximum. -/
theorem performTTest_identical_one (g : List ℝ) (h2 : 2 ≤ g.length)
    (hvar : 0 < ssVariance g) :
    performTTest g g = TestP.val (JNum.num 1) := by
  have hne : g ≠ [] := by
    intro h
    rw [h] at h2
    simp at h2
  have hguard : ¬ (g.isEmpty = true ∨ g.isEmpty = true) := by
    simp [List.isEmpty_iff, hne]
  have hn0 : (0 : ℝ) < (g.length : ℝ) := by
    have : 0 < g.length := by omega
    exact_mod_cast this
  have hn2 : (2 : ℝ) ≤ (g.length : ℝ) := by exact_mod_cast h2
  have hs : 0 < ssStd g := Real.sqrt_pos.mpr hvar
  have hq : 0 < ssStd g * ssStd g / (g.length : ℝ) := div_pos (mul_pos hs hs) hn0
  have hApos : 0 < ssStd g * ssStd g / (g.length : ℝ) + ssStd g * ssStd g / (g.length : ℝ) :=
    add_pos hq hq
  have hsA : 0 < Real.sqrt
      (ssStd g * ssStd g / (g.length : ℝ) + ssStd g * ssStd g / (g.length : ℝ)) :=
    Real.sqrt_pos.mpr hApos
  have hn1 : (0 : ℝ) < (g.length : ℝ) - 1 := by linarith
  have hB1 : 0 < (ssStd g * ssStd g / (g.length : ℝ)) ^ 2 := pow_pos hq 2
  have hBq : 0 < (ssStd g * ssStd g / (g.length : ℝ)) ^ 2 / ((g.length : ℝ) - 1) :=
    div_pos hB1 hn1
  have hB : 0 < (ssStd g * ssStd g / (g.length : ℝ)) ^ 2 / ((g.length : ℝ) - 1) +
      (ssStd g * ssStd g / (g.length : ℝ)) ^ 2 / ((g.length : ℝ) - 1) := add_pos hBq hBq
  have hdf : 0 <
      (ssStd g * ssStd g / (g.length : ℝ) + ssStd g * ssStd g / (g.length : ℝ)) ^ 2 /
        ((ssStd g * ssStd g / (g.length : ℝ)) ^ 2 / ((g.length : ℝ) - 1) +
          (ssStd g * ssStd g / (g.length : ℝ)) ^ 2 / ((g.length : ℝ) - 1)) :=
    div_pos (pow_pos hApos 2) hB
  have hsdf : 0 < Real.sqrt
      ((ssStd g * ssStd g / (g.length : ℝ) + ssStd g * ssStd g / (g.length : ℝ)) ^ 2 /
        ((ssStd g * ssStd g / (g.length : ℝ)) ^ 2 / ((g.length : ℝ) - 1) +
          (ssStd g * ssStd g / (g.length : ℝ)) ^ 2 / ((g.length : ℝ) - 1))) :=
    Real.sqrt_pos.mpr hdf
  rw [performTTest, if_neg hguard]
  simp only
  rw [sub_self, jdiv_num_num _ _ hsA.ne', zero_div]
  rw [jdiv_num_num _ _ hn1.ne', jadd_num_num, jdiv_num_num _ _ hB.ne']
  rw [jsqrt_num _ (le_of_lt hdf), jabs_num, abs_zero, jadd_num_num, zero_add]
  rw [jdiv_num_num _ _ hsdf.ne', zero_div, jsub_num_num, sub_zero, jmul_num_num, mul_one]
  rw [jmin_num_num, min_eq_left (by norm_num : (1 : ℝ) ≤ 2)]
  rw [jmax_num_num, max_eq_right (by norm_num : (0 : ℝ) ≤ 1)]

/-- Witness for `performTTest_identical_one`: the dataset `[0, 2]` has two
values and variance 1. -/
theorem performTTest_identical_one_witness :
    2 ≤ ([(0 : ℝ), 2] : List ℝ).length ∧ 0 < ssVariance [(0 : ℝ), 2] ∧
      performTTest [(0 : ℝ), 2] [(0 : ℝ), 2] = TestP.val (JNum.num 1) := by
  have h1 : 2 ≤ ([(0 : ℝ), 2] : List ℝ).length := by norm_num
  have h2 : 0 < ssVariance [(0 : ℝ), 2] := by
    norm_num [ssVariance, ssMean]
  exact ⟨h1, h2, performTTest_identical_one _ h1 h2⟩

/-- C6 counterexample: on two identical *constant* datasets — every metric
value equal between and within the groups, as the claim reads — both
standard deviations are 0, the t statistic is the genuine `0/0 = NaN`, and
the returned raw p-value is `NaN`, not 1. -/
theorem performTTest_constant_nan :
    performTTest [(5 : ℝ), 5] [(5 : ℝ), 5] = TestP.val JNum.nan ∧
      performTTest [(5 : ℝ), 5] [(5 : ℝ), 5] ≠ TestP.val (JNum.num 1) := by
  have h : performTTest [(5 : ℝ), 5] [(5 : ℝ), 5] = TestP.val JNum.nan := by
    rw [performTTest]
    norm_num [ssMean, ssVariance, ssStd, Real.sqrt_zero, jdiv, jadd, jsub, jneg, jmul,
      jabs, jsqrt, jmin, jmax]
  refine ⟨h, ?_⟩
  rw [h]
  intro hc
  injection hc with hv
  injection hv

/-! ### Benjamini-Hochberg correction (C7) -/

instance : IsTotal (ℚ × ℕ) (fun a b => a.1 ≤ b.1) :=
  ⟨fun a b => le_total a.1 b.1⟩

instance : IsTrans (ℚ × ℕ) (fun a b => a.1 ≤ b.1) :=
  ⟨fun _ _ _ hab hbc => le_trans hab hbc⟩

/-- `Forall₂` respects appending. -/
theorem forall₂_append_pair {α β : Type} {R : α → β → Prop} :
    ∀ {l₁ u₁ : List α} {l₂ u₂ : List β},
      List.Forall₂ R l₁ l₂ → List.Forall₂ R u₁ u₂ → List.Forall₂ R (l₁ ++ u₁) (l₂ ++ u₂) := by
  intro l₁ u₁ l₂ u₂ h h'
  induction h with
  | nil => exact h'
  | cons hab _ ih => exact List.Forall₂.cons hab ih

/-- `Forall₂` respects reversal. -/
theorem forall₂_reverse_pair {α β : Type} {R : α → β → Prop} :
    ∀ {l₁ : List α} {l₂ : List β},
      List.Forall₂ R l₁ l₂ → List.Forall₂ R l₁.reverse l₂.reverse := by
  intro l₁ l₂ h
  induction h with
  | nil => exact List.Forall₂.nil
  | cons hab _ ih =>
    rw [List.reverse_cons, List.reverse_cons]
    exact forall₂_append_pair ih (List.Forall₂.cons hab List.Forall₂.nil)

/-- An element of an enumeration is the list element at its index. -/
theorem mem_enum_spec {α : Type} (l : List α) (kd : ℕ × α) (h : kd ∈ l.enum) :
    ∃ hlt : kd.1 < l.length, kd.2 = l[kd.1] := by
  obtain ⟨k, hk, heq⟩ := List.mem_iff_getElem.mp h
  have hk' : k < l.length := by
    rw [List.enum_length] at hk
    exact hk
  rw [List.getElem_enum] at heq
  rcases kd with ⟨j, v⟩
  rw [Prod.mk.injEq] at heq
  obtain ⟨h1, h2⟩ := heq
  subst h1
  exact ⟨hk', h2.symm⟩

/-- Conversely, each index-element pair is in the enumeration. -/
theorem enum_mem_of_lt {α : Type} (l : List α) (i : ℕ) (h : i < l.length) :
    (i, l[i]) ∈ l.enum := by
  have he : i < l.enum.length := by
    rw [List.enum_length]
    exact h
  have hm := List.getElem_mem he
  rw [List.getElem_enum] at hm
  exact hm

/-- The stable ascending sort is a permutation of the indexed pairs. -/
theorem bhSorted_perm (ps : List ℚ) :
    (bhSorted ps).Perm (ps.enum.map fun p => (p.2, p.1)) :=
  List.perm_insertionSort _ _

/-- The stable ascending sort is sorted by p-value. -/
theorem bhSorted_sorted (ps : List ℚ) :
    List.Pairwise (fun a b : ℚ × ℕ => a.1 ≤ b.1) (bhSorted ps) :=
  List.sorted_insertionSort _ _

/-- The sorted pair list has one entry per p-value. -/
theorem bhSorted_length (ps : List ℚ) : (bhSorted ps).length = ps.length := by
  rw [(bhSorted_perm ps).length_eq, List.length_map, List.enum_length]

/-- The original indices carried through the sort are `0, …, n-1`, permuted. -/
theorem bhSorted_keys_perm (ps : List ℚ) :
    ((bhSorted ps).map Prod.snd).Perm (List.range ps.length) := by
  have h1 := (bhSorted_perm ps).map Prod.snd
  have h2 : ((ps.enum.map fun p => (p.2, p.1)).map Prod.snd) = List.range ps.length := by
    rw [List.map_map]
    rw [show (Prod.snd ∘ fun p : ℕ × ℚ => (p.2, p.1)) = Prod.fst from rfl]
    exact List.enum_map_fst ps
  rw [h2] at h1
  exact h1

/-- The original indices carried through the sort are distinct. -/
theorem bhSorted_keys_nodup (ps : List ℚ) : ((bhSorted ps).map Prod.snd).Nodup :=
  ((bhSorted_keys_perm ps).nodup_iff).mpr (List.nodup_range _)

/-- Membership in the sorted pair list decodes to the enumeration. -/
theorem mem_bhSorted_iff (ps : List ℚ) (p : ℚ) (j : ℕ) :
    (p, j) ∈ bhSorted ps ↔ (j, p) ∈ ps.enum := by
  rw [(bhSorted_perm ps).mem_iff, List.mem_map]
  constructor
  · rintro ⟨kd, hkd, heq⟩
    rw [Prod.mk.injEq] at heq
    rcases kd with ⟨a, b⟩
    dsimp only at heq
    obtain ⟨h1, h2⟩ := heq
    subst h1
    subst h2
    exact hkd
  · intro h
    exact ⟨(j, p), h, rfl⟩

/-- The backward Benjamini-Hochberg loop pairs each sorted entry with an
output entry that keeps its original index and is at least its raw p-value,
provided the input is descending, bounded in `[0, 1]`, no longer than the
current rank, and the rank is at most `n`. -/
theorem bhBack_forall₂ (n : ℚ) :
    ∀ (L : List (ℚ × ℕ)) (acc : Option ℚ) (rank : ℕ),
      L.Pairwise (fun a b : ℚ × ℕ => b.1 ≤ a.1) →
      (∀ x ∈ L, 0 ≤ x.1 ∧ x.1 ≤ 1) →
      L.length ≤ rank →
      (rank : ℚ) ≤ n →
      (∀ a : ℚ, acc = Option.some a → ∀ x ∈ L, x.1 ≤ a) →
      List.Forall₂ (fun (x : ℚ × ℕ) (y : ℕ × ℚ) => y.1 = x.2 ∧ x.1 ≤ y.2) L
        (bhBack n L acc rank) := by
  intro L
  induction L with
  | nil =>
    intro acc rank _ _ _ _ _
    rw [bhBack]
    exact List.Forall₂.nil
  | cons pj rest ih =>
    intro acc rank hdesc hbound hlen hrank hacc
    have hrank1 : 1 ≤ rank := le_trans (by simp) hlen
    have hrankQ : (1 : ℚ) ≤ (rank : ℚ) := by exact_mod_cast hrank1
    have hp := hbound pj (List.mem_cons_self _ _)
    have hcand : pj.1 ≤ pj.1 * n / (rank : ℚ) := by
      rw [le_div_iff₀ (by linarith : (0 : ℚ) < (rank : ℚ))]
      exact mul_le_mul_of_nonneg_left hrank hp.1
    have hdesc' := (List.pairwise_cons.mp hdesc).2
    have hdesc1 := (List.pairwise_cons.mp hdesc).1
    have hbound' : ∀ x ∈ rest, 0 ≤ x.1 ∧ x.1 ≤ 1 :=
      fun x hx => hbound x (List.mem_cons_of_mem _ hx)
    have hlen' : rest.length ≤ rank - 1 := by
      rw [List.length_cons] at hlen
      omega
    have hrank' : ((rank - 1 : ℕ) : ℚ) ≤ n :=
      le_trans (by exact_mod_cast Nat.sub_le rank 1) hrank
    rcases acc with _ | prev
    · simp only [bhBack]
      have hpc : pj.1 ≤ min 1 (pj.1 * n / (rank : ℚ)) := le_min hp.2 hcand
      refine List.Forall₂.cons ⟨rfl, hpc⟩ ?_
      apply ih _ _ hdesc' hbound' hlen' hrank'
      intro a ha x hx
      rw [Option.some.injEq] at ha
      subst ha
      exact le_trans (hdesc1 x hx) hpc
    · simp only [bhBack]
      have hprev : pj.1 ≤ prev := hacc prev rfl pj (List.mem_cons_self _ _)
      have hpc : pj.1 ≤ min 1 (min (pj.1 * n / (rank : ℚ)) prev) :=
        le_min hp.2 (le_min hcand hprev)
      refine List.Forall₂.cons ⟨rfl, hpc⟩ ?_
      apply ih _ _ hdesc' hbound' hlen' hrank'
      intro a ha x hx
      rw [Option.some.injEq] at ha
      subst ha
      exact le_trans (hdesc1 x hx) hpc

/-- The head of a backward loop started with a previous corrected value is
at most that value. -/
theorem bhBack_head_le (n a : ℚ) :
    ∀ (L : List (ℚ × ℕ)) (rank : ℕ),
      ∀ y ∈ (bhBack n L (Option.some a) rank).head?, y.2 ≤ a := by
  intro L rank y hy
  cases L with
  | nil =>
    rw [bhBack] at hy
    simp at hy
  | cons pj rest =>
    simp only [bhBack, List.head?_cons, Option.mem_def, Option.some.injEq] at hy
    subst hy
    exact le_trans (min_le_right _ _) (min_le_right _ _)

/-- Along the backward loop the corrected values never increase. -/
theorem bhBack_chain (n : ℚ) :
    ∀ (L : List (ℚ × ℕ)) (acc : Option ℚ) (rank : ℕ),
      List.Chain' (fun x y : ℕ × ℚ => y.2 ≤ x.2) (bhBack n L acc rank) := by
  intro L
  induction L with
  | nil =>
    intro acc rank
    rw [bhBack]
    exact List.chain'_nil
  | cons pj rest ih =>
    intro acc rank
    simp only [bhBack]
    apply List.chain'_cons'.mpr
    exact ⟨fun y hy => bhBack_head_le n _ rest (rank - 1) y hy, ih _ (rank - 1)⟩

/-- The backward loop emits the original indices of its input, in order. -/
theorem bhBack_keys (n : ℚ) :
    ∀ (L : List (ℚ × ℕ)) (acc : Option ℚ) (rank : ℕ),
      (bhBack n L acc rank).map Prod.fst = L.map Prod.snd := by
  intro L
  induction L with
  | nil =>
    intro acc rank
    rw [bhBack]
    rfl
  | cons pj rest ih =>
    intro acc rank
    simp only [bhBack, List.map_cons]
    rw [ih]

/-- `lookup` on an association list with distinct keys finds any member. -/
theorem lookup_eq_of_mem_keys_nodup {β : Type} :
    ∀ (l : List (ℕ × β)) (j : ℕ) (c : β),
      (l.map Prod.fst).Nodup → (j, c) ∈ l → l.lookup j = Option.some c := by
  intro l
  induction l with
  | nil =>
    intro j c _ h
    exact absurd h (List.not_mem_nil _)
  | cons kv t ih =>
    intro j c hnd hmem
    rcases kv with ⟨k, v⟩
    rw [List.map_cons] at hnd
    have hnd' := List.pairwise_cons.mp hnd
    rw [List.mem_cons] at hmem
    by_cases hjk : j = k
    · subst hjk
      rcases hmem with heq | hmem
      · rw [Prod.mk.injEq] at heq
        rw [List.lookup_cons]
        simp [heq.2]
      · exact absurd (List.mem_map_of_mem Prod.fst hmem)
          (by simpa using fun hh => hnd'.1 j hh rfl)
    · rcases hmem with heq | hmem
      · rw [Prod.mk.injEq] at heq
        exact absurd heq.1 hjk
      · rw [List.lookup_cons]
        have hb : (j == k) = false := beq_false_of_ne hjk
        simp only [hb]
        exact ih j c hnd'.2 hmem

/-- Reading the corrected list at an index below `n` is looking that index
up in the backward loop's association list. -/
theorem bh_out_getD (ps : List ℚ) (j : ℕ) (hj : j < ps.length) :
    (benjaminiHochbergCorrection ps).getD j 0 =
      ((bhBack (ps.length : ℚ) (bhSorted ps).reverse Option.none ps.length).lookup j).getD 0 := by
  rw [benjaminiHochbergCorrection]
  simp [List.getD_eq_getElem?_getD, List.getElem?_range, hj]

/-- C7: the Benjamini-Hochberg correction returns one corrected value per
original comparison, mapped back by original index; the corrected values
are non-decreasing along the ascending sort of the raw p-values; and each
corrected value is at least its raw p-value. -/
theorem benjaminiHochberg_correct (ps : List ℚ) (hbound : ∀ p ∈ ps, 0 ≤ p ∧ p ≤ 1) :
    (benjaminiHochbergCorrection ps).length = ps.length ∧
    (∀ i, i < ps.length → ps.getD i 0 ≤ (benjaminiHochbergCorrection ps).getD i 0) ∧
    List.Chain' (· ≤ ·)
      ((bhSorted ps).map fun q => (benjaminiHochbergCorrection ps).getD q.2 0) := by
  set L := (bhSorted ps).reverse with hL
  set assoc := bhBack (ps.length : ℚ) L Option.none ps.length with hassoc
  have hdesc : L.Pairwise (fun a b : ℚ × ℕ => b.1 ≤ a.1) := by
    rw [hL]
    exact (List.pairwise_reverse).mpr (bhSorted_sorted ps)
  have hboundL : ∀ x ∈ L, 0 ≤ x.1 ∧ x.1 ≤ 1 := by
    intro x hx
    rw [hL, List.mem_reverse] at hx
    rcases x with ⟨p, j⟩
    have henum := (mem_bhSorted_iff ps p j).mp hx
    obtain ⟨hlt, hval⟩ := mem_enum_spec ps (j, p) henum
    dsimp only at hlt hval
    subst hval
    exact hbound _ (List.getElem_mem hlt)
  have hlenL : L.length = ps.length := by
    rw [hL, List.length_reverse, bhSorted_length]
  have HF : List.Forall₂ (fun (x : ℚ × ℕ) (y : ℕ × ℚ) => y.1 = x.2 ∧ x.1 ≤ y.2) L assoc := by
    rw [hassoc]
    apply bhBack_forall₂ _ _ _ _ hdesc hboundL (le_of_eq hlenL) le_rfl
    intro a ha
    exact absurd ha (by simp)
  have hkeysnd : assoc.map Prod.fst = ((bhSorted ps).map Prod.snd).reverse := by
    rw [hassoc, bhBack_keys, hL, List.map_reverse]
  have hkeynodup : (assoc.map Prod.fst).Nodup := by
    rw [hkeysnd, List.nodup_reverse]
    exact bhSorted_keys_nodup ps
  have hidx_lt : ∀ y ∈ assoc, y.1 < ps.length := by
    intro y hy
    have h1 : y.1 ∈ assoc.map Prod.fst := List.mem_map_of_mem Prod.fst hy
    rw [hkeysnd, List.mem_reverse, List.mem_map] at h1
    obtain ⟨x, hx, hxy⟩ := h1
    rcases x with ⟨p, j⟩
    have henum := (mem_bhSorted_iff ps p j).mp hx
    obtain ⟨hlt, _⟩ := mem_enum_spec ps (j, p) henum
    dsimp only at hlt hxy
    rw [← hxy]
    exact hlt
  have hvalout : ∀ y ∈ assoc, (benjaminiHochbergCorrection ps).getD y.1 0 = y.2 := by
    intro y hy
    rw [bh_out_getD ps y.1 (hidx_lt y hy), ← hL, ← hassoc]
    have hmem : (y.1, y.2) ∈ assoc := by
      rcases y with ⟨a, b⟩
      exact hy
    rw [lookup_eq_of_mem_keys_nodup assoc y.1 y.2 hkeynodup hmem]
    rfl
  refine ⟨?_, ?_, ?_⟩
  · rw [benjaminiHochbergCorrection]
    simp
  · intro i hi
    have hmemS : (ps[i], i) ∈ bhSorted ps :=
      (mem_bhSorted_iff ps _ i).mpr (enum_mem_of_lt ps i hi)
    have hmemL : (ps[i], i) ∈ L := by
      rw [hL, List.mem_reverse]
      exact hmemS
    obtain ⟨k, hk, hkeq⟩ := List.mem_iff_getElem.mp hmemL
    have hleneq := (List.forall₂_iff_get.mp HF).1
    have hk2 : k < assoc.length := by
      rw [← hleneq]
      exact hk
    have hRk := (List.forall₂_iff_get.mp HF).2 k hk hk2
    simp only [List.get_eq_getElem] at hRk
    rw [hkeq] at hRk
    have hymem : assoc[k] ∈ assoc := List.getElem_mem hk2
    have hout := hvalout assoc[k] hymem
    rw [hRk.1] at hout
    rw [hout]
    have hpsi : ps.getD i 0 = ps[i] := by
      rw [List.getD_eq_getElem?_getD, List.getElem?_eq_getElem hi]
      rfl
    rw [hpsi]
    exact hRk.2
  · have hchain : assoc.reverse.Chain' (fun a b : ℕ × ℚ => a.2 ≤ b.2) := by
      apply (List.chain'_reverse).mpr
      rw [hassoc]
      exact bhBack_chain _ L Option.none ps.length
    have HFrev := forall₂_reverse_pair HF
    rw [hL, List.reverse_reverse] at HFrev
    have hlens := (List.forall₂_iff_get.mp HFrev).1
    have hmapeq : ((bhSorted ps).map fun q => (benjaminiHochbergCorrection ps).getD q.2 0) =
        assoc.reverse.map Prod.snd := by
      apply List.ext_getElem
      · rw [List.length_map, List.length_map, hlens]
      · intro k h1 h2
        rw [List.length_map] at h1 h2
        rw [List.getElem_map, List.getElem_map]
        have hRk := (List.forall₂_iff_get.mp HFrev).2 k h1 h2
        simp only [List.get_eq_getElem] at hRk
        have hmem : assoc.reverse[k] ∈ assoc := by
          rw [← List.mem_reverse]
          exact List.getElem_mem h2
        rw [← hRk.1]
        exact hvalout _ hmem
    rw [hmapeq]
    exact (List.chain'_map Prod.snd).mpr hchain

/-- Witness for `benjaminiHochberg_correct` on the raw p-values
`[1/2, 1/4, 3/4]`. -/
theorem benjaminiHochberg_correct_witness :
    (∀ p ∈ [(1 : ℚ)/2, 1/4, 3/4], 0 ≤ p ∧ p ≤ 1) ∧
      (benjaminiHochbergCorrection [(1 : ℚ)/2, 1/4, 3/4]).length =
        ([(1 : ℚ)/2, 1/4, 3/4] : List ℚ).length := by
  have hb : ∀ p ∈ [(1 : ℚ)/2, 1/4, 3/4], 0 ≤ p ∧ p ≤ 1 := by
    intro p hp
    simp only [List.mem_cons, List.not_mem_nil, or_false] at hp
    rcases hp with rfl | rfl | rfl <;> norm_num
  exact ⟨hb, (benjaminiHochberg_correct _ hb).1⟩

end Studio
